import Mathlib

/-!
# ProfilerGraph (src/gui/profilergraph.cpp)

A shallow embedding of `ProfilerGraph::put` and `ProfilerGraph::draw`.

The values stored by `put` are modelled by `F`: either NaN or a finite value,
the finite values being rationals.  `put` only compares and copies floats, and
the comparison of finite floats agrees with the order of the rationals, so the
model of `put` is exact on finite samples and on NaN.

The values computed by `draw` are modelled by `FX`, which adds the two
infinities.  Every arithmetic operation of `draw` is the exact operation
followed by the rounding `round32` to binary32 (round to nearest, ties to
even, gradual underflow, overflow to infinity).  The sign of zero is outside
the model.
-/

namespace ProfilerGraph

/-- A `float`: the not-a-number value, or a finite value. -/
inductive F where
  | nan : F
  | fin : ℚ → F
  deriving DecidableEq

namespace F

/-- The C++ `a == b` on floats: false whenever an operand is NaN. -/
def eq : F → F → Bool
  | fin a, fin b => decide (a = b)
  | _, _ => false

/-- The C++ `a != b` on floats: true whenever an operand is NaN. -/
def ne (a b : F) : Bool := !(eq a b)

/-- The C++ `a < b` on floats: false whenever an operand is NaN. -/
def lt : F → F → Bool
  | fin a, fin b => decide (a < b)
  | _, _ => false

/-- The C++ `a > b` on floats. -/
def gt (a b : F) : Bool := lt b a

end F

/-- A `float` computed by `draw`: NaN, an infinity (the flag is true for the
negative one), or a finite value. -/
inductive FX where
  | nan : FX
  | inf : Bool → FX
  | fin : ℚ → FX
  deriving DecidableEq

/-- The power `2^z` of two, for an integer exponent. -/
def pow2 (z : Int) : ℚ :=
  if 0 ≤ z then ((2 ^ z.toNat : Nat) : ℚ) else 1 / ((2 ^ z.natAbs : Nat) : ℚ)

/-- The search for the exponent of `a`, downwards from `k - 126`: the greatest
`e` in `[-125, k - 126]` with `2^e ≤ a`, and `-126` when there is none. -/
def binadeFrom (a : ℚ) : Nat → Int
  | 0 => -126
  | k + 1 => if pow2 ((k : Int) - 125) ≤ a then (k : Int) - 125 else binadeFrom a k

/-- The exponent of binary32 used for the magnitude `a`: the `e` with
`2^e ≤ a < 2^(e+1)`, kept in the range `[-126, 127]` of binary32. -/
def binade (a : ℚ) : Int := binadeFrom a 253

/-- The integer nearest to `t`, the even one of the two when `t` is half way
between them. -/
def roundHalfEven (t : ℚ) : Int :=
  if t - ⌊t⌋ < 1 / 2 then ⌊t⌋
  else if 1 / 2 < t - ⌊t⌋ then ⌊t⌋ + 1
  else if ⌊t⌋ % 2 = 0 then ⌊t⌋ else ⌊t⌋ + 1

/-- The unit in the last place of binary32 at the magnitude `a`: `2^(e - 23)`
for the exponent `e` of `a` (24 bits of significand). -/
def ulp (a : ℚ) : ℚ := pow2 (binade a - 23)

/-- The magnitude `a ≥ 0` rounded to the nearest multiple of its unit in the
last place, ties to even. -/
def roundMag (a : ℚ) : ℚ := (roundHalfEven (a / ulp a) : ℚ) * ulp a

/-- The real number `x` rounded to the grid of binary32, before the test for
overflow. -/
def roundQ (x : ℚ) : ℚ := if x < 0 then -(roundMag (-x)) else roundMag x

/-- The rounding of a real result to binary32: to the nearest value, ties to
even, and to an infinity when the rounded magnitude reaches `2^128`. -/
def round32 (x : ℚ) : FX :=
  if pow2 128 ≤ |roundQ x| then FX.inf (decide (x < 0)) else FX.fin (roundQ x)

namespace FX

/-- The C++ `a == b` on computed floats. -/
def eq : FX → FX → Bool
  | fin a, fin b => decide (a = b)
  | inf s, inf t => decide (s = t)
  | _, _ => false

/-- The C++ `a * b` in binary32. -/
def mul : FX → FX → FX
  | fin a, fin b => round32 (a * b)
  | inf s, inf t => inf (xor s t)
  | inf s, fin b => if b = 0 then nan else inf (xor s (decide (b < 0)))
  | fin a, inf t => if a = 0 then nan else inf (xor (decide (a < 0)) t)
  | _, _ => nan

/-- The C++ `a / b` in binary32; `none` records a division whose divisor is
zero (its result depends on the sign of the zero, which is outside the
model). -/
def div : FX → FX → Option FX
  | fin a, fin b => if b = 0 then none else some (round32 (a / b))
  | fin _, inf _ => some (fin 0)
  | inf s, fin b => if b = 0 then none else some (inf (xor s (decide (b < 0))))
  | _, _ => some nan

/-- The conversion of an `s32` to `float`. -/
def ofInt (n : Int) : FX := round32 (n : ℚ)

/-- Conversion of a float to `s32`: truncation toward zero; `none` for NaN,
the infinities and the values outside the range of `s32`, where the conversion
is undefined. -/
def toS32 : FX → Option Int
  | fin q =>
    let t := Int.tdiv q.num (q.den : Int)
    if -2147483648 ≤ t ∧ t ≤ 2147483647 then some t else none
  | _ => none

end FX

/-- The C++ `a - b` in binary32, on two stored floats. -/
def F.sub : F → F → FX
  | F.fin a, F.fin b => round32 (a - b)
  | _, _ => FX.nan

/-- The rational `q` is a value of binary32. -/
def isFloat (q : ℚ) : Prop := round32 q = FX.fin q

instance (q : ℚ) : Decidable (isFloat q) := by
  unfold isFloat
  infer_instance

/-- The value record of one graph of `m_log2`: its `queue`, `max` and `min`. -/
structure Graph where
  queue : List F
  max : F
  min : F
  deriving DecidableEq

/-- The type `Profiler::GraphValues`: a map from names to floats, as the list
of its entries in iteration order. -/
abbrev GraphValues := List (String × F)

/-- The map `m_log2`, as the list of its entries in iteration order.  Its
declaration is in profilergraph.h; it is taken to be a `std::map`, which is
iterated in the order of the names. -/
abbrev Log := List (String × Graph)

/-- The lookup `values.find(name)`. -/
def findValue (name : String) : GraphValues → Option F
  | [] => none
  | (k, v) :: rest => if k = name then some v else findValue name rest

/-- The lookup `m_log2.find(name)`. -/
def findGraph (name : String) : Log → Option Graph
  | [] => none
  | (k, g) :: rest => if k = name then some g else findGraph name rest

/-- The emptiness scan of `put` (lines 33-39): `empty` starts true and is
cleared by the first entry with `value != NAN`. -/
def scanEmpty : List F → Bool
  | [] => true
  | value :: rest => if F.ne value F.nan then false else scanEmpty rest

/-- The scan "Find new max" (lines 61-63), from the start value `m`. -/
def scanMax (m : F) : List F → F
  | [] => m
  | value :: rest =>
    if F.eq value value && F.gt value m then scanMax value rest else scanMax m rest

/-- The scan "Find new min" (lines 68-70), from the start value `m`. -/
def scanMin (m : F) : List F → F
  | [] => m
  | value :: rest =>
    if F.eq value value && F.lt value m then scanMin value rest else scanMin m rest

/-- The max after the removal of `value_at_begin` (lines 58-64). -/
def maxAfterErase (value_at_begin : F) (rest : List F) (mx : F) : F :=
  if F.eq value_at_begin mx then scanMax (F.fin 0) rest else mx

/-- The min after the removal of `value_at_begin` (lines 65-71); `mx` is the
max as left by lines 58-64. -/
def minAfterErase (value_at_begin : F) (rest : List F) (mx mn : F) : F :=
  if F.eq value_at_begin mn then scanMin mx rest else mn

/-- The loop `while (queue.size() > m_log_max_size)` of `put` (lines 54-72),
on the queue and the current max and min. -/
def eraseBeyondLimit (m_log_max_size : Nat) : List F → F → F → Graph
  | [], mx, mn => ⟨[], mx, mn⟩
  | value_at_begin :: rest, mx, mn =>
    if rest.length + 1 > m_log_max_size then
      let mx1 := maxAfterErase value_at_begin rest mx
      let mn1 := minAfterErase value_at_begin rest mx1 mn
      eraseBeyondLimit m_log_max_size rest mx1 mn1
    else ⟨value_at_begin :: rest, mx, mn⟩

/-- The graph after the append of lines 31 or 46-51, before the queue is cut
to the limit: a NaN is appended when the name has no value, otherwise the
value is appended and max and min follow it. -/
def appendValue (sample : Option F) (g : Graph) : Graph :=
  match sample with
  | none => ⟨g.queue ++ [F.nan], g.max, g.min⟩
  | some value =>
    ⟨g.queue ++ [value],
      if F.gt value g.max then value else g.max,
      if F.eq value value && F.lt value g.min then value else g.min⟩

/-- The graph an existing entry has after the body of the first loop, when
the entry is kept. -/
def updatedGraph (m_log_max_size : Nat) (sample : Option F) (g : Graph) : Graph :=
  let g1 := appendValue sample g
  eraseBeyondLimit m_log_max_size g1.queue g1.max g1.min

/-- The body of the first loop of `put` (lines 27-73) on one entry; `none`
when the entry is erased at line 41. -/
def updateEntry (m_log_max_size : Nat) (values : GraphValues) (graph : String × Graph) :
    Option (String × Graph) :=
  match findValue graph.1 values with
  | none =>
    if scanEmpty (appendValue none graph.2).queue then none
    else some (graph.1, updatedGraph m_log_max_size none graph.2)
  | some value => some (graph.1, updatedGraph m_log_max_size (some value) graph.2)

/-- The number of values of the type of `m_log_max_size`.  The member is
declared in profilergraph.h and is taken to be a `u32`. -/
def U32_SIZE : Nat := 4294967296

/-- The graph created at lines 79-83: `(size_t)(m_log_max_size - 1)` NaNs,
computed in `u32`, followed by the value. -/
def newGraph (m_log_max_size : Nat) (value : F) : Graph :=
  ⟨List.replicate ((m_log_max_size + U32_SIZE - 1) % U32_SIZE) F.nan ++ [value], value, value⟩

/-- The insertion `m_log2[name]` of a name that is not in the map: the entry
goes before the first greater name. -/
def insertGraph (name : String) (g : Graph) : Log → Log
  | [] => [(name, g)]
  | (k, g1) :: rest =>
    if name < k then (name, g) :: (k, g1) :: rest else (k, g1) :: insertGraph name g rest

/-- The second loop of `put` (lines 76-85). -/
def addNewGraphs (m_log_max_size : Nat) : GraphValues → Log → Log
  | [], log => log
  | (name, value) :: rest, log =>
    match findGraph name log with
    | some _ => addNewGraphs m_log_max_size rest log
    | none => addNewGraphs m_log_max_size rest (insertGraph name (newGraph m_log_max_size value) log)

/-- The method `ProfilerGraph::put`. -/
def put (m_log_max_size : Nat) (values : GraphValues) (log : Log) : Log :=
  addNewGraphs m_log_max_size values (log.filterMap (updateEntry m_log_max_size values))

/-- The state after the calls `put(values)` for the `values` of `calls`, in
order, on the empty graph. -/
def runPuts (m_log_max_size : Nat) (calls : List GraphValues) : Log :=
  calls.foldl (fun log values => put m_log_max_size values log) []

/-- The present values of a queue: its entries that are not NaN. -/
def present : List F → List ℚ
  | [] => []
  | F.nan :: rest => present rest
  | F.fin q :: rest => q :: present rest

/-- Every sample of the call is finite. -/
def finiteValues (values : GraphValues) : Prop := ∀ p ∈ values, p.2 ≠ F.nan

instance (values : GraphValues) : Decidable (finiteValues values) := by
  unfold finiteValues
  infer_instance

/-- A colour `video::SColor(a, r, g, b)`. -/
structure SColor where
  a : Nat
  r : Nat
  g : Nat
  b : Nat
  deriving DecidableEq

/-- The array `usable_colors` of `draw` (lines 92-96). -/
def usable_colors : List SColor :=
  [⟨255, 255, 100, 100⟩, ⟨255, 90, 225, 90⟩, ⟨255, 100, 100, 255⟩, ⟨255, 255, 150, 50⟩,
    ⟨255, 220, 220, 100⟩]

/-- The constant `usable_colors_count` (lines 97-98). -/
def usable_colors_count : Nat := usable_colors.length

/-- The colour of the graph with index `graph_i` (line 106); `none` when the
element read is outside the array `usable_colors`. -/
def graphColor (graph_i : Nat) : Option SColor :=
  if graph_i ≤ usable_colors_count then usable_colors.get? graph_i
  else some ⟨255, 200, 200, 200⟩

/-- A call `driver->draw2DLine(v2s32(x1, y1), v2s32(x2, y2), color)`. -/
structure Line where
  x1 : Int
  y1 : Int
  x2 : Int
  y2 : Int
  color : SColor
  deriving DecidableEq

/-- The variable `scaledvalue` of `draw` for a value that exists (lines
162-165); `none` when the division has a zero divisor. -/
def scaledValue (value show_min show_max : F) : Option FX :=
  if F.ne show_max show_min then FX.div (F.sub value show_min) (F.sub show_max show_min)
  else some (FX.fin 1)

/-- The loop over the queue of one graph in `draw` (lines 153-193): the lines
drawn, in order, from the cursor `x` and the state `lastscaledvalue`,
`lastscaledvalue_exists`; `none` when a division by zero or an undefined
conversion to `s32` is met. -/
def drawQueue (show_min show_max : F) (relativegraph : Bool) (graph1y graph1h : Int)
    (color : SColor) : List F → Int → FX → Bool → Option (List Line)
  | [], _, _, _ => some []
  | value :: rest, x, lastscaledvalue, lastscaledvalue_exists =>
    if !(F.eq value value) then
      drawQueue show_min show_max relativegraph graph1y graph1h color rest (x + 1)
        lastscaledvalue false
    else
      match scaledValue value show_min show_max with
      | none => none
      | some scaledvalue =>
        if FX.eq scaledvalue (FX.fin 1) && F.eq value (F.fin 0) then
          drawQueue show_min show_max relativegraph graph1y graph1h color rest (x + 1)
            lastscaledvalue false
        else if relativegraph then
          if lastscaledvalue_exists then
            match FX.toS32 (FX.mul lastscaledvalue (FX.ofInt graph1h)),
              FX.toS32 (FX.mul scaledvalue (FX.ofInt graph1h)),
              drawQueue show_min show_max relativegraph graph1y graph1h color rest (x + 1)
                scaledvalue true with
            | some ivalue1, some ivalue2, some lines =>
              some (⟨x - 1, graph1y - ivalue1, x, graph1y - ivalue2, color⟩ :: lines)
            | _, _, _ => none
          else
            drawQueue show_min show_max relativegraph graph1y graph1h color rest (x + 1)
              scaledvalue true
        else
          match FX.toS32 (FX.mul scaledvalue (FX.ofInt graph1h)),
            drawQueue show_min show_max relativegraph graph1y graph1h color rest (x + 1)
              lastscaledvalue lastscaledvalue_exists with
          | some ivalue, some lines =>
            some (⟨x, graph1y, x, graph1y - ivalue, color⟩ :: lines)
          | _, _ => none

/-- The colour that `draw` uses for the graph with index `graph_i`.  For the
index 5 line 106 reads one element past the end of `usable_colors`; the value
read there is not determined by the program and is the parameter `past_end`. -/
def seriesColor (past_end : SColor) (graph_i : Nat) : SColor :=
  match graphColor graph_i with
  | some color => color
  | none => past_end

/-- The body of the loop over the graphs in `draw` (lines 105-193) for the
graph with index `graph_i`: the lines drawn.  The texts drawn with the font
are left out, and lines 112-115 change nothing. -/
def drawGraph (past_end : SColor) (x_left y_bottom : Int) (graph_i : Nat) (g : Graph) :
    Option (List Line) :=
  let color := seriesColor past_end graph_i
  let y := y_bottom - (graph_i : Int) * 50
  let show_min := g.min
  let show_max := g.max
  let relativegraph := F.ne show_min (F.fin 0) && F.ne show_min show_max
  drawQueue show_min show_max relativegraph y 50 color g.queue x_left (FX.fin 0) false

/-- The loop over the graphs in `draw`, from the index `graph_i`. -/
def drawFrom (past_end : SColor) (x_left y_bottom : Int) : Nat → Log → Option (List Line)
  | _, [] => some []
  | graph_i, (_, g) :: rest =>
    match drawGraph past_end x_left y_bottom graph_i g,
      drawFrom past_end x_left y_bottom (graph_i + 1) rest with
    | some lines, some more => some (lines ++ more)
    | _, _ => none

/-- The method `ProfilerGraph::draw`: the lines drawn. -/
def draw (past_end : SColor) (x_left y_bottom : Int) (log : Log) : Option (List Line) :=
  drawFrom past_end x_left y_bottom 0 log

/-- The bounds of the graph enclose its present values: max and min are
finite and every present value of the queue lies between them. -/
def Enclosed (g : Graph) : Prop :=
  ∃ m M, g.min = F.fin m ∧ g.max = F.fin M ∧ ∀ p ∈ present g.queue, m ≤ p ∧ p ≤ M

/-- Every sample of the call is finite and not negative. -/
def nonNegValues (values : GraphValues) : Prop :=
  ∀ p ∈ values, F.eq p.2 p.2 = true ∧ F.lt p.2 (F.fin 0) = false

instance (values : GraphValues) : Decidable (nonNegValues values) := by
  unfold nonNegValues
  infer_instance

/-- The max of the graph is the maximum of 0 and the present values, none of
which is negative. -/
def MaxTight (g : Graph) : Prop :=
  ∃ M, g.max = F.fin M ∧ 0 ≤ M ∧ (∀ p ∈ present g.queue, 0 ≤ p ∧ p ≤ M) ∧
    (M = 0 ∨ M ∈ present g.queue)

/-- The test of line 167 of `draw` on a value that exists: the value is
skipped. -/
def zeroSkipped (show_min show_max value : F) : Bool :=
  match scaledValue value show_min show_max with
  | some scaledvalue => FX.eq scaledvalue (FX.fin 1) && F.eq value (F.fin 0)
  | none => false

/-- The entry of the queue is drawn: it exists (line 155) and is not skipped
by line 167. -/
def isDrawn (show_min show_max value : F) : Bool :=
  F.eq value value && !(zeroSkipped show_min show_max value)

/-- The offset in pixels of a value, `scaledvalue * graph1h` converted to
`s32` (lines 175, 176 and 187) with the `graph1h = 50` of `draw`; `none` when
the division or the conversion is undefined. -/
def pixelOffset (show_min show_max value : F) : Option Int :=
  match scaledValue value show_min show_max with
  | some scaledvalue => FX.toS32 (FX.mul scaledvalue (FX.ofInt 50))
  | none => none

/-- The bar of the absolute mode for the slot `k` with entry `v`, in the
words of the specification: a vertical line from `(x_left + k, y)` to
`(x_left + k, y - offset)` when the entry is drawn, nothing otherwise. -/
def specBar (x_left y : Int) (color : SColor) (show_min show_max : F) (slot : Nat × F) :
    Option Line :=
  if isDrawn show_min show_max slot.2 then
    some ⟨x_left + slot.1, y, x_left + slot.1,
      y - (pixelOffset show_min show_max slot.2).getD 0, color⟩
  else none

/-- The bars of the absolute mode in the words of the specification: one bar
for each slot of the history that holds a drawn entry, in the order of the
slots. -/
def specBars (x_left y : Int) (color : SColor) (show_min show_max : F) (queue : List F) :
    List Line :=
  queue.enum.filterMap (specBar x_left y color show_min show_max)

/-- The segment of the relative mode for the slot `k`, with the entries `a`
of the slot `k - 1` and `b` of the slot `k`, in the words of the
specification: a line from `(x_left + k - 1, y - offset a)` to
`(x_left + k, y - offset b)` when both entries are drawn, nothing otherwise. -/
def specSegment (x_left y : Int) (color : SColor) (show_min show_max : F)
    (slot : Nat × F × F) : Option Line :=
  if isDrawn show_min show_max slot.2.1 && isDrawn show_min show_max slot.2.2 then
    some ⟨x_left + slot.1 - 1, y - (pixelOffset show_min show_max slot.2.1).getD 0,
      x_left + slot.1, y - (pixelOffset show_min show_max slot.2.2).getD 0, color⟩
  else none

/-- The segments of the relative mode in the words of the specification: one
segment for each slot `k ≥ 1` such that the slots `k - 1` and `k` both hold a
drawn entry, in the order of the slots. -/
def specSegments (x_left y : Int) (color : SColor) (show_min show_max : F)
    (queue : List F) : List Line :=
  ((queue.zip queue.tail).enumFrom 1).filterMap (specSegment x_left y color show_min show_max)

/-- The line lies in the plot area of the graph whose base line is `y`: its
two ends have `x` in `[x_left, x_left + width - 1]` and `y` in `[y - 50, y]`. -/
def inPlotArea (x_left y : Int) (width : Nat) (l : Line) : Prop :=
  (x_left ≤ l.x1 ∧ l.x1 ≤ x_left + width - 1) ∧ (x_left ≤ l.x2 ∧ l.x2 ≤ x_left + width - 1) ∧
    (y - 50 ≤ l.y1 ∧ l.y1 ≤ y) ∧ (y - 50 ≤ l.y2 ∧ l.y2 ≤ y)

/-- The stored float is a finite value of binary32. -/
def F.IsFloat : F → Prop
  | F.fin q => isFloat q
  | F.nan => False

instance (v : F) : Decidable (F.IsFloat v) := by
  cases v <;> unfold F.IsFloat <;> infer_instance

/-- Every sample of the call is a finite value of binary32. -/
def floatValues (values : GraphValues) : Prop := ∀ p ∈ values, F.IsFloat p.2

instance (values : GraphValues) : Decidable (floatValues values) := by
  unfold floatValues
  infer_instance

/-- The present values of the history and the bounds of the graph are finite
values of binary32. -/
def FloatGraph (g : Graph) : Prop :=
  (∀ p ∈ present g.queue, isFloat p) ∧ (∃ M, g.max = F.fin M ∧ isFloat M) ∧
    ∃ m, g.min = F.fin m ∧ isFloat m

/-- The conversions to `s32` that `draw` makes for the graph are defined: every
drawn entry of the history has an offset. -/
def OffsetsDefined (g : Graph) : Prop :=
  ∀ v ∈ g.queue, isDrawn g.min g.max v = true → (pixelOffset g.min g.max v).isSome = true

instance (g : Graph) : Decidable (OffsetsDefined g) := by
  unfold OffsetsDefined
  infer_instance

/-! ## Lemmas on the scans and on the queue -/

theorem F.ne_nan (v : F) : F.ne v F.nan = true := by
  cases v <;> rfl

theorem scanEmpty_append (q : List F) (x : F) : scanEmpty (q ++ [x]) = false := by
  cases q <;> simp [scanEmpty, F.ne_nan]

theorem updateEntry_eq (cap : Nat) (values : GraphValues) (e : String × Graph) :
    updateEntry cap values e = some (e.1, updatedGraph cap (findValue e.1 values) e.2) := by
  unfold updateEntry
  cases h : findValue e.1 values with
  | none => simp [appendValue, scanEmpty_append]
  | some v => rfl

theorem present_append (a b : List F) : present (a ++ b) = present a ++ present b := by
  induction a with
  | nil => rfl
  | cons x a ih => cases x <;> simp [present, ih]

theorem present_replicate_nan (n : Nat) : present (List.replicate n F.nan) = [] := by
  induction n with
  | zero => rfl
  | succ n ih => simp [List.replicate_succ, present, ih]

theorem scanMax_spec (q : List F) (a : ℚ) :
    ∃ M, scanMax (F.fin a) q = F.fin M ∧ a ≤ M ∧ (∀ p ∈ present q, p ≤ M) ∧
      (M = a ∨ M ∈ present q) := by
  induction q generalizing a with
  | nil => exact ⟨a, rfl, le_refl _, by simp [present], Or.inl rfl⟩
  | cons x q ih =>
    cases x with
    | nan =>
      obtain ⟨M, h1, h2, h3, h4⟩ := ih a
      refine ⟨M, ?_, h2, ?_, ?_⟩
      · simpa [scanMax, F.eq] using h1
      · simpa [present] using h3
      · simpa [present] using h4
    | fin v =>
      by_cases hv : a < v
      · obtain ⟨M, h1, h2, h3, h4⟩ := ih v
        refine ⟨M, ?_, le_trans hv.le h2, ?_, ?_⟩
        · simpa [scanMax, F.eq, F.gt, F.lt, hv] using h1
        · intro p hp
          simp only [present, List.mem_cons] at hp
          rcases hp with rfl | hp
          · exact h2
          · exact h3 p hp
        · right
          simp only [present, List.mem_cons]
          rcases h4 with h | h
          · exact Or.inl h
          · exact Or.inr h
      · obtain ⟨M, h1, h2, h3, h4⟩ := ih a
        refine ⟨M, ?_, h2, ?_, ?_⟩
        · simpa [scanMax, F.eq, F.gt, F.lt, hv] using h1
        · intro p hp
          simp only [present, List.mem_cons] at hp
          rcases hp with rfl | hp
          · exact le_trans (not_lt.mp hv) h2
          · exact h3 p hp
        · rcases h4 with h | h
          · exact Or.inl h
          · right
            simp only [present, List.mem_cons]
            exact Or.inr h

theorem scanMin_spec (q : List F) (a : ℚ) :
    ∃ m, scanMin (F.fin a) q = F.fin m ∧ m ≤ a ∧ (∀ p ∈ present q, m ≤ p) ∧
      (m = a ∨ m ∈ present q) := by
  induction q generalizing a with
  | nil => exact ⟨a, rfl, le_refl _, by simp [present], Or.inl rfl⟩
  | cons x q ih =>
    cases x with
    | nan =>
      obtain ⟨m, h1, h2, h3, h4⟩ := ih a
      refine ⟨m, ?_, h2, ?_, ?_⟩
      · simpa [scanMin, F.eq] using h1
      · simpa [present] using h3
      · simpa [present] using h4
    | fin v =>
      by_cases hv : v < a
      · obtain ⟨m, h1, h2, h3, h4⟩ := ih v
        refine ⟨m, ?_, le_trans h2 hv.le, ?_, ?_⟩
        · simpa [scanMin, F.eq, F.lt, hv] using h1
        · intro p hp
          simp only [present, List.mem_cons] at hp
          rcases hp with rfl | hp
          · exact h2
          · exact h3 p hp
        · right
          simp only [present, List.mem_cons]
          rcases h4 with h | h
          · exact Or.inl h
          · exact Or.inr h
      · obtain ⟨m, h1, h2, h3, h4⟩ := ih a
        refine ⟨m, ?_, h2, ?_, ?_⟩
        · simpa [scanMin, F.eq, F.lt, hv] using h1
        · intro p hp
          simp only [present, List.mem_cons] at hp
          rcases hp with rfl | hp
          · exact le_trans h2 (not_lt.mp hv)
          · exact h3 p hp
        · rcases h4 with h | h
          · exact Or.inl h
          · right
            simp only [present, List.mem_cons]
            exact Or.inr h

theorem eraseBeyondLimit_queue (cap : Nat) (q : List F) (mx mn : F) :
    (eraseBeyondLimit cap q mx mn).queue = q.drop (q.length - cap) := by
  induction q generalizing mx mn with
  | nil => simp [eraseBeyondLimit]
  | cons e rest ih =>
    unfold eraseBeyondLimit
    by_cases h : rest.length + 1 > cap
    · simp only [h, if_true, ih]
      have : (e :: rest).length - cap = (rest.length - cap) + 1 := by
        simp only [List.length_cons]; omega
      rw [this, List.drop_succ_cons]
    · simp only [h, if_false]
      have : (e :: rest).length - cap = 0 := by
        simp only [List.length_cons]; omega
      rw [this, List.drop_zero]

theorem eraseBeyondLimit_of_le (cap : Nat) (q : List F) (mx mn : F) (h : q.length ≤ cap) :
    eraseBeyondLimit cap q mx mn = ⟨q, mx, mn⟩ := by
  cases q with
  | nil => rfl
  | cons e rest =>
    have h1 : ¬ rest.length + 1 > cap := by
      simp only [List.length_cons] at h; omega
    simp [eraseBeyondLimit, h1]

theorem eraseBeyondLimit_one (cap : Nat) (e : F) (rest : List F) (mx mn : F)
    (h : rest.length = cap) :
    eraseBeyondLimit cap (e :: rest) mx mn =
      ⟨rest, maxAfterErase e rest mx,
        minAfterErase e rest (maxAfterErase e rest mx) mn⟩ := by
  have h1 : rest.length + 1 > cap := by omega
  rw [eraseBeyondLimit]
  simp only [h1, if_true]
  exact eraseBeyondLimit_of_le cap rest _ _ (le_of_eq h)

/-! ## Lemmas on the map -/

theorem mem_insertGraph (e : String × Graph) (name : String) (g : Graph) (log : Log) :
    e ∈ insertGraph name g log ↔ e = (name, g) ∨ e ∈ log := by
  induction log with
  | nil => simp [insertGraph]
  | cons hd rest ih =>
    obtain ⟨k, g1⟩ := hd
    unfold insertGraph
    by_cases h : name < k
    · simp [h]
    · simp only [h, if_false, List.mem_cons, ih]
      tauto

theorem findGraph_insertGraph_ne (name k : String) (g : Graph) (log : Log) (h : k ≠ name) :
    findGraph name (insertGraph k g log) = findGraph name log := by
  induction log with
  | nil => simp [insertGraph, findGraph, h]
  | cons hd rest ih =>
    obtain ⟨k1, g1⟩ := hd
    unfold insertGraph
    by_cases hlt : k < k1
    · simp [hlt, findGraph, h]
    · simp only [hlt, if_false, findGraph, ih]

theorem findGraph_insertGraph_self (name : String) (g : Graph) (log : Log)
    (h : findGraph name log = none) :
    findGraph name (insertGraph name g log) = some g := by
  induction log with
  | nil => simp [insertGraph, findGraph]
  | cons hd rest ih =>
    obtain ⟨k1, g1⟩ := hd
    unfold insertGraph
    by_cases hk : k1 = name
    · simp [findGraph, hk] at h
    · have hrest : findGraph name rest = none := by
        simpa [findGraph, hk] using h
      by_cases hlt : name < k1
      · simp [hlt, findGraph]
      · simp [hlt, findGraph, hk, ih hrest]

theorem findGraph_addNewGraphs_of_some (cap : Nat) (name : String) (g : Graph)
    (values : GraphValues) (log : Log) (h : findGraph name log = some g) :
    findGraph name (addNewGraphs cap values log) = some g := by
  induction values generalizing log with
  | nil => simpa [addNewGraphs] using h
  | cons hd rest ih =>
    obtain ⟨k, v⟩ := hd
    unfold addNewGraphs
    cases hk : findGraph k log with
    | some g1 => exact ih log h
    | none =>
      have hne : k ≠ name := by
        intro heq
        rw [heq, h] at hk
        exact Option.noConfusion hk
      exact ih _ (by rw [findGraph_insertGraph_ne name k _ log hne]; exact h)

theorem findGraph_addNewGraphs_of_none (cap : Nat) (name : String) (v : F)
    (values : GraphValues) (log : Log) (h : findGraph name log = none)
    (hv : findValue name values = some v) :
    findGraph name (addNewGraphs cap values log) = some (newGraph cap v) := by
  induction values generalizing log with
  | nil => simp [findValue] at hv
  | cons hd rest ih =>
    obtain ⟨k, v1⟩ := hd
    unfold addNewGraphs
    by_cases hk : k = name
    · subst hk
      have hv1 : v1 = v := by simpa [findValue] using hv
      subst hv1
      rw [h]
      exact findGraph_addNewGraphs_of_some cap k _ rest _
        (findGraph_insertGraph_self k _ log h)
    · have hv2 : findValue name rest = some v := by simpa [findValue, hk] using hv
      cases hk1 : findGraph k log with
      | some g1 => exact ih log h hv2
      | none =>
        exact ih _ (by rw [findGraph_insertGraph_ne name k _ log hk]; exact h) hv2

theorem filterMap_updateEntry (cap : Nat) (values : GraphValues) (log : Log) :
    log.filterMap (updateEntry cap values) =
      log.map (fun e => (e.1, updatedGraph cap (findValue e.1 values) e.2)) := by
  induction log with
  | nil => rfl
  | cons hd rest ih => simp [List.filterMap_cons, updateEntry_eq, ih]

theorem findGraph_map_update (cap : Nat) (values : GraphValues) (name : String) (log : Log) :
    findGraph name (log.map (fun e => (e.1, updatedGraph cap (findValue e.1 values) e.2))) =
      (findGraph name log).map (updatedGraph cap (findValue name values)) := by
  induction log with
  | nil => rfl
  | cons hd rest ih =>
    obtain ⟨k, g⟩ := hd
    by_cases hk : k = name
    · subst hk
      simp [findGraph]
    · simp [findGraph, hk, ih]

/-- A graph that is in the map before `put` is in the map after it, updated
by the body of the first loop. -/
theorem findGraph_put_of_some (cap : Nat) (values : GraphValues) (name : String) (g : Graph)
    (log : Log) (h : findGraph name log = some g) :
    findGraph name (put cap values log) =
      some (updatedGraph cap (findValue name values) g) := by
  unfold put
  apply findGraph_addNewGraphs_of_some
  rw [filterMap_updateEntry, findGraph_map_update, h]
  rfl

/-- A name that is not in the map and has a value gets the new graph. -/
theorem findGraph_put_of_none (cap : Nat) (values : GraphValues) (name : String) (v : F)
    (log : Log) (h : findGraph name log = none) (hv : findValue name values = some v) :
    findGraph name (put cap values log) = some (newGraph cap v) := by
  unfold put
  apply findGraph_addNewGraphs_of_none _ _ _ _ _ _ hv
  rw [filterMap_updateEntry, findGraph_map_update, h]
  rfl

theorem mem_addNewGraphs (cap : Nat) (e : String × Graph) (values : GraphValues) (log : Log)
    (h : e ∈ addNewGraphs cap values log) :
    e ∈ log ∨ ∃ p ∈ values, e = (p.1, newGraph cap p.2) := by
  induction values generalizing log with
  | nil => exact Or.inl (by simpa [addNewGraphs] using h)
  | cons hd rest ih =>
    obtain ⟨k, v⟩ := hd
    unfold addNewGraphs at h
    cases hk : findGraph k log with
    | some g1 =>
      rw [hk] at h
      rcases ih log h with h1 | ⟨p, hp, h1⟩
      · exact Or.inl h1
      · exact Or.inr ⟨p, List.mem_cons_of_mem _ hp, h1⟩
    | none =>
      rw [hk] at h
      rcases ih _ h with h1 | ⟨p, hp, h1⟩
      · rcases (mem_insertGraph e k _ log).1 h1 with h2 | h2
        · exact Or.inr ⟨(k, v), List.mem_cons_self _ _, h2⟩
        · exact Or.inl h2
      · exact Or.inr ⟨p, List.mem_cons_of_mem _ hp, h1⟩

theorem findValue_mem (name : String) (v : F) (values : GraphValues)
    (h : findValue name values = some v) : (name, v) ∈ values := by
  induction values with
  | nil => simp [findValue] at h
  | cons hd rest ih =>
    obtain ⟨k, v1⟩ := hd
    by_cases hk : k = name
    · subst hk
      have : v1 = v := by simpa [findValue] using h
      subst this
      exact List.mem_cons_self _ _
    · exact List.mem_cons_of_mem _ (ih (by simpa [findValue, hk] using h))

/-- Every entry of the map after `put` is an entry of the map before it,
updated, or a new graph for a value of the call. -/
theorem mem_put (cap : Nat) (e : String × Graph) (values : GraphValues) (log : Log)
    (h : e ∈ put cap values log) :
    (∃ e0 ∈ log, e = (e0.1, updatedGraph cap (findValue e0.1 values) e0.2)) ∨
      ∃ p ∈ values, e = (p.1, newGraph cap p.2) := by
  unfold put at h
  rcases mem_addNewGraphs cap e values _ h with h1 | h1
  · left
    rw [filterMap_updateEntry, List.mem_map] at h1
    obtain ⟨e0, he0, h2⟩ := h1
    exact ⟨e0, he0, h2.symm⟩
  · exact Or.inr h1

/-- An invariant of the graphs: a property that holds of every new graph and
is kept by the update of a graph holds of every graph of every state that
`put` reaches from the empty map; `S` restricts the samples. -/
theorem runPuts_invariant (P : Graph → Prop) (S : F → Prop) (cap : Nat)
    (hnew : ∀ v, S v → P (newGraph cap v))
    (hnone : ∀ g, P g → P (updatedGraph cap none g))
    (hsome : ∀ g v, P g → S v → P (updatedGraph cap (some v) g))
    (calls : List GraphValues) (hcalls : ∀ values ∈ calls, ∀ p ∈ values, S p.2) :
    ∀ e ∈ runPuts cap calls, P e.2 := by
  unfold runPuts
  have key : ∀ (cs : List GraphValues) (log : Log),
      (∀ values ∈ cs, ∀ p ∈ values, S p.2) → (∀ e ∈ log, P e.2) →
      ∀ e ∈ cs.foldl (fun log values => put cap values log) log, P e.2 := by
    intro cs
    induction cs with
    | nil => intro log _ hlog; simpa using hlog
    | cons values rest ih =>
      intro log hcs hlog
      rw [List.foldl_cons]
      apply ih
      · intro vs hvs
        exact hcs vs (List.mem_cons_of_mem _ hvs)
      · intro e he
        rcases mem_put cap e values log he with ⟨e0, he0, rfl⟩ | ⟨p, hp, rfl⟩
        · cases hf : findValue e0.1 values with
          | none => exact hnone _ (hlog e0 he0)
          | some v =>
            exact hsome _ v (hlog e0 he0)
              (hcs values (List.mem_cons_self _ _) _ (findValue_mem _ _ _ hf))
        · exact hnew _ (hcs values (List.mem_cons_self _ _) p hp)
  exact key calls [] hcalls (by simp)

/-! ## The enclosure of the present values by the bounds -/

theorem mem_present_cons (p : ℚ) (e : F) (rest : List F) (h : p ∈ present rest) :
    p ∈ present (e :: rest) := by
  cases e with
  | nan => simpa [present] using h
  | fin q => simp [present, h]

theorem findGraph_mem (name : String) (g : Graph) (log : Log)
    (h : findGraph name log = some g) : (name, g) ∈ log := by
  induction log with
  | nil => simp [findGraph] at h
  | cons hd rest ih =>
    obtain ⟨k, g1⟩ := hd
    by_cases hk : k = name
    · subst hk
      have : g1 = g := by simpa [findGraph] using h
      subst this
      exact List.mem_cons_self _ _
    · exact List.mem_cons_of_mem _ (ih (by simpa [findGraph, hk] using h))

theorem appendValue_queue (sample : Option F) (g : Graph) :
    (appendValue sample g).queue = g.queue ++ [sample.getD F.nan] := by
  cases sample <;> rfl

theorem enclosed_newGraph (cap : Nat) (v : F) (hv : v ≠ F.nan) : Enclosed (newGraph cap v) := by
  cases v with
  | nan => exact absurd rfl hv
  | fin q =>
    have hq : present (newGraph cap (F.fin q)).queue = [q] := by
      unfold newGraph
      rw [present_append, present_replicate_nan]
      rfl
    refine ⟨q, q, rfl, rfl, ?_⟩
    intro p hp
    rw [hq, List.mem_singleton] at hp
    subst hp
    exact ⟨le_refl _, le_refl _⟩

theorem enclosed_appendValue_none (g : Graph) (h : Enclosed g) :
    Enclosed (appendValue none g) := by
  obtain ⟨m, M, hm, hM, hp⟩ := h
  refine ⟨m, M, hm, hM, ?_⟩
  intro p hq
  simp only [appendValue, present_append, present, List.append_nil] at hq
  exact hp p hq

theorem enclosed_appendValue_some (g : Graph) (v : F) (hv : v ≠ F.nan) (h : Enclosed g) :
    Enclosed (appendValue (some v) g) := by
  obtain ⟨m, M, hm, hM, hp⟩ := h
  cases v with
  | nan => exact absurd rfl hv
  | fin q =>
    refine ⟨min m q, max M q, ?_, ?_, ?_⟩
    · simp only [appendValue, hm, F.eq, F.lt, decide_True, Bool.true_and, decide_eq_true_eq]
      by_cases hlt : q < m
      · simp [hlt, min_eq_right hlt.le]
      · simp [hlt, min_eq_left (not_lt.mp hlt)]
    · simp only [appendValue, hM, F.gt, F.lt, decide_eq_true_eq]
      by_cases hlt : M < q
      · simp [hlt, max_eq_right hlt.le]
      · simp [hlt, max_eq_left (not_lt.mp hlt)]
    · intro p hq
      simp only [appendValue, present_append, present, List.mem_append,
        List.mem_singleton] at hq
      rcases hq with hq | rfl
      · exact ⟨le_trans (min_le_left _ _) (hp p hq).1, le_trans (hp p hq).2 (le_max_left _ _)⟩
      · exact ⟨min_le_right _ _, le_max_right _ _⟩

/-- The max left by lines 58-64 is finite and bounds the values that stay. -/
theorem maxAfterErase_spec (e : F) (rest : List F) (mx mn : F)
    (h : Enclosed ⟨e :: rest, mx, mn⟩) :
    ∃ M1, maxAfterErase e rest mx = F.fin M1 ∧ ∀ p ∈ present rest, p ≤ M1 := by
  obtain ⟨m, M, _, hM, hp⟩ := h
  simp only at hM hp
  unfold maxAfterErase
  by_cases heq : F.eq e mx = true
  · obtain ⟨M1, h1, _, h3, _⟩ := scanMax_spec rest 0
    exact ⟨M1, by rw [if_pos heq]; exact h1, h3⟩
  · refine ⟨M, by rw [if_neg heq]; exact hM, ?_⟩
    intro p hq
    exact (hp p (mem_present_cons p e rest hq)).2

/-- The min left by lines 65-71 is finite and bounds the values that stay. -/
theorem minAfterErase_spec (e : F) (rest : List F) (M1 : ℚ) (mx mn : F)
    (h : Enclosed ⟨e :: rest, mx, mn⟩) :
    ∃ m1, minAfterErase e rest (F.fin M1) mn = F.fin m1 ∧ ∀ p ∈ present rest, m1 ≤ p := by
  obtain ⟨m, M, hm, _, hp⟩ := h
  simp only at hm hp
  unfold minAfterErase
  by_cases heq : F.eq e mn = true
  · obtain ⟨m1, h1, _, h3, _⟩ := scanMin_spec rest M1
    exact ⟨m1, by rw [if_pos heq]; exact h1, h3⟩
  · refine ⟨m, by rw [if_neg heq]; exact hm, ?_⟩
    intro p hq
    exact (hp p (mem_present_cons p e rest hq)).1

theorem enclosed_eraseBeyondLimit (cap : Nat) (q : List F) (mx mn : F)
    (h : Enclosed ⟨q, mx, mn⟩) : Enclosed (eraseBeyondLimit cap q mx mn) := by
  induction q generalizing mx mn with
  | nil => simpa [eraseBeyondLimit] using h
  | cons e rest ih =>
    unfold eraseBeyondLimit
    by_cases hlim : rest.length + 1 > cap
    · simp only [hlim, if_true]
      apply ih
      obtain ⟨M1, hM1, hle⟩ := maxAfterErase_spec e rest mx mn h
      rw [hM1]
      obtain ⟨m1, hm1, hge⟩ := minAfterErase_spec e rest M1 mx mn h
      exact ⟨m1, M1, hm1, rfl, fun p hq => ⟨hge p hq, hle p hq⟩⟩
    · simpa [hlim] using h

theorem enclosed_updatedGraph_none (cap : Nat) (g : Graph) (h : Enclosed g) :
    Enclosed (updatedGraph cap none g) :=
  enclosed_eraseBeyondLimit cap _ _ _ (enclosed_appendValue_none g h)

theorem enclosed_updatedGraph_some (cap : Nat) (g : Graph) (v : F) (h : Enclosed g)
    (hv : v ≠ F.nan) : Enclosed (updatedGraph cap (some v) g) :=
  enclosed_eraseBeyondLimit cap _ _ _ (enclosed_appendValue_some g v hv h)

/-- In every state that `put` reaches from the empty map with finite samples
the bounds of every graph are finite and enclose its present values. -/
theorem enclosed_of_reachable (cap : Nat) (calls : List GraphValues)
    (hfin : ∀ values ∈ calls, finiteValues values) :
    ∀ e ∈ runPuts cap calls, Enclosed e.2 :=
  runPuts_invariant Enclosed (fun v => v ≠ F.nan) cap (enclosed_newGraph cap)
    (enclosed_updatedGraph_none cap) (enclosed_updatedGraph_some cap) calls hfin

/-! ## The length of the queues -/

theorem updatedGraph_queue (cap : Nat) (sample : Option F) (g : Graph) :
    (updatedGraph cap sample g).queue =
      (g.queue ++ [sample.getD F.nan]).drop (g.queue.length + 1 - cap) := by
  unfold updatedGraph
  simp only [eraseBeyondLimit_queue, appendValue_queue, List.length_append, List.length_singleton]

theorem updatedGraph_length_le (cap : Nat) (sample : Option F) (g : Graph) :
    (updatedGraph cap sample g).queue.length ≤ cap := by
  rw [updatedGraph_queue]
  simp only [List.length_drop, List.length_append, List.length_singleton]
  omega

theorem newGraph_length_le (cap : Nat) (hcap : 1 ≤ cap) (v : F) :
    (newGraph cap v).queue.length ≤ cap := by
  simp only [newGraph, U32_SIZE, List.length_append, List.length_replicate,
    List.length_singleton]
  omega

/-- With the limit 0 the count `m_log_max_size - 1` of line 82 wraps to
`4294967295`, so a new graph has `4294967296` entries. -/
theorem newGraph_zero_length (v : F) : (newGraph 0 v).queue.length = 4294967296 := by
  have h : (0 + U32_SIZE - 1) % U32_SIZE = 4294967295 := by
    unfold U32_SIZE
    norm_num
  have key : ∀ n : Nat, (0 + U32_SIZE - 1) % U32_SIZE = n →
      (newGraph 0 v).queue.length = n + 1 := by
    intro n hn
    unfold newGraph
    rw [hn, List.length_append, List.length_replicate, List.length_singleton]
  exact key 4294967295 h

/-- With a limit of at least one, no queue of a reachable state is longer
than the limit. -/
theorem length_le_of_reachable (cap : Nat) (hcap : 1 ≤ cap) (calls : List GraphValues) :
    ∀ e ∈ runPuts cap calls, e.2.queue.length ≤ cap :=
  runPuts_invariant (fun g => g.queue.length ≤ cap) (fun _ => True) cap
    (fun v _ => newGraph_length_le cap hcap v)
    (fun g _ => updatedGraph_length_le cap none g)
    (fun g v _ _ => updatedGraph_length_le cap (some v) g) calls
    (fun _ _ _ _ => trivial)

/-! ## The claims on `put` -/

/-- C1: the bounds are not always the true extrema of the present values.
With limit 1 the calls `put({a: -1})`, `put({a: -2})` leave the history `[-2]`
with max 0, because the search for the new max starts from 0; with limit 2
the calls `put({a: 5})`, `put({})`, `put({})`, `put({a: 3})` leave the history
`[NaN, 3]` with min 0, because the graph of only NaNs was kept with the bounds
that the searches left. -/
theorem bounds_differ_from_extrema :
    runPuts 1 [[("a", F.fin (-1))], [("a", F.fin (-2))]] =
        [("a", ⟨[F.fin (-2)], F.fin 0, F.fin (-2)⟩)] ∧
      runPuts 2 [[("a", F.fin 5)], [], [], [("a", F.fin 3)]] =
        [("a", ⟨[F.nan, F.fin 3], F.fin 3, F.fin 0⟩)] := by
  decide

/-- C2: a graph whose history holds only NaNs is not removed.  With limit 2,
after `put({fps: 60})` and two calls `put({})` the graph "fps" is still in the
map, its history being `[NaN, NaN]`: the scan for emptiness compares with
`value != NAN`, which holds of every value. -/
theorem exhausted_graph_is_kept :
    runPuts 2 [[("fps", F.fin 60)], [], []] =
      [("fps", ⟨[F.nan, F.nan], F.fin 0, F.fin 0⟩)] := by
  decide

/-- C3, as stated, fails for the limit 0: the graph created by `put({fps: 60})`
has `(u32)(0 - 1) + 1 = 4294967296` entries, more than the limit. -/
theorem capacity_zero_overlong :
    ∃ e ∈ runPuts 0 [[("fps", F.fin 60)]],
      e.1 = "fps" ∧ e.2.queue.length = 4294967296 ∧ ¬ e.2.queue.length ≤ 0 := by
  have hfind : findGraph "fps" (put 0 [("fps", F.fin 60)] []) = some (newGraph 0 (F.fin 60)) :=
    findGraph_put_of_none 0 _ "fps" (F.fin 60) [] rfl (by simp [findValue])
  have hlen : (newGraph 0 (F.fin 60)).queue.length = 4294967296 :=
    newGraph_zero_length (F.fin 60)
  refine ⟨("fps", newGraph 0 (F.fin 60)), findGraph_mem _ _ _ hfind, rfl, hlen, ?_⟩
  show ¬ (newGraph 0 (F.fin 60)).queue.length ≤ 0
  rw [hlen]
  decide

/-- C3, amended: for every limit `m_log_max_size ≥ 1` and every sequence of
calls of `put` from the empty map, every graph of the map has a history of
length at most `m_log_max_size` (the sequence is arbitrary, so this holds
after each call). -/
theorem capacity_invariant (cap : Nat) (hcap : 1 ≤ cap) (calls : List GraphValues) :
    ∀ e ∈ runPuts cap calls, e.2.queue.length ≤ cap :=
  length_le_of_reachable cap hcap calls

/-- Witness of C3, amended: the limit 2 and three calls of `put`. -/
theorem capacity_invariant_witness :
    1 ≤ 2 ∧ ∀ e ∈ runPuts 2 [[("a", F.fin 1)], [("b", F.fin 2)], [("a", F.fin 3)]],
      e.2.queue.length ≤ 2 :=
  ⟨by decide, capacity_invariant 2 (by decide) _⟩

/-- C4, as stated, fails for the limit 0: the graph that `put({fps: 60})`
creates in the empty map has a history of length 4294967296, not 0. -/
theorem creation_at_capacity_zero :
    (findGraph "fps" (put 0 [("fps", F.fin 60)] [])).map (fun g => g.queue.length) =
        some 4294967296 ∧
      (4294967296 : Nat) ≠ 0 := by
  refine ⟨?_, by decide⟩
  rw [findGraph_put_of_none 0 [("fps", F.fin 60)] "fps" (F.fin 60) [] rfl (by simp [findValue]),
    Option.map_some']
  exact congrArg some (newGraph_zero_length (F.fin 60))

/-- C4, amended: for every limit with `1 ≤ m_log_max_size < 2^32`, every map
in which the name is not tracked and every call that maps the name to `v`,
after `put` the graph of the name exists, its history has length
`m_log_max_size` and is `m_log_max_size - 1` NaNs followed by `v`, and its
min and max are `v`. -/
theorem lazy_creation (cap : Nat) (hcap : 1 ≤ cap) (hu32 : cap < U32_SIZE)
    (values : GraphValues) (log : Log) (name : String) (v : F)
    (hlog : findGraph name log = none) (hv : findValue name values = some v) :
    ∃ g, findGraph name (put cap values log) = some g ∧ g.queue.length = cap ∧
      g.queue = List.replicate (cap - 1) F.nan ++ [v] ∧ g.min = v ∧ g.max = v := by
  have hn : (cap + U32_SIZE - 1) % U32_SIZE = cap - 1 := by
    unfold U32_SIZE at hu32 ⊢
    omega
  refine ⟨newGraph cap v, findGraph_put_of_none cap values name v log hlog hv, ?_, ?_, rfl, rfl⟩
  · simp only [newGraph, hn, List.length_append, List.length_replicate, List.length_singleton]
    omega
  · simp only [newGraph, hn]

/-- Witness of C4, amended: the limit 3 and `put({fps: 60})` on the empty
map. -/
theorem lazy_creation_witness :
    ∃ g, findGraph "fps" (put 3 [("fps", F.fin 60)] []) = some g ∧ g.queue.length = 3 ∧
      g.queue = List.replicate (3 - 1) F.nan ++ [F.fin 60] ∧ g.min = F.fin 60 ∧
      g.max = F.fin 60 :=
  lazy_creation 3 (by decide) (by decide) [("fps", F.fin 60)] [] "fps" (F.fin 60) rfl
    (by decide)

/-- C5: for every map, every call and every graph `g` tracked before `put`,
the graph is tracked after `put` and its new history is the old history
followed by one new entry, with the oldest entries dropped until the length
is at most `m_log_max_size`; the new entry is the value of the name in the
call, or NaN when the call has none.  The new history is thus a final segment
of the extended history, in the same order, and when an entry remains the
last one is the new entry. -/
theorem sliding_window (cap : Nat) (values : GraphValues) (log : Log) (name : String)
    (g : Graph) (h : findGraph name log = some g) :
    ∃ g1, findGraph name (put cap values log) = some g1 ∧
      g1.queue = (g.queue ++ [(findValue name values).getD F.nan]).drop
        (g.queue.length + 1 - cap) ∧
      g1.queue.length = min (g.queue.length + 1) cap ∧
      g1.queue <:+ g.queue ++ [(findValue name values).getD F.nan] ∧
      (g1.queue ≠ [] → g1.queue.getLast? = some ((findValue name values).getD F.nan)) := by
  refine ⟨_, findGraph_put_of_some cap values name g log h, updatedGraph_queue cap _ g, ?_, ?_, ?_⟩
  · rw [updatedGraph_queue]
    simp only [List.length_drop, List.length_append, List.length_singleton]
    omega
  · rw [updatedGraph_queue]
    exact List.drop_suffix _ _
  · intro hne
    rw [updatedGraph_queue] at hne ⊢
    have hlt : g.queue.length + 1 - cap < (g.queue ++ [(findValue name values).getD F.nan]).length := by
      by_contra hge
      exact hne (List.drop_eq_nil_of_le (not_lt.mp hge))
    rw [List.getLast?_drop, if_neg (not_le.mpr hlt), List.getLast?_append]
    rfl

/-- Witness of C5: the limit 2, the history `[1, 2]` and `put({a: 3})`. -/
theorem sliding_window_witness :
    ∃ g1, findGraph "a" (put 2 [("a", F.fin 3)] [("a", ⟨[F.fin 1, F.fin 2], F.fin 2, F.fin 1⟩)]) =
        some g1 ∧
      g1.queue = ([F.fin 1, F.fin 2] ++ [(findValue "a" [("a", F.fin 3)]).getD F.nan]).drop
        ([F.fin 1, F.fin 2].length + 1 - 2) ∧
      g1.queue.length = min ([F.fin 1, F.fin 2].length + 1) 2 ∧
      g1.queue <:+ [F.fin 1, F.fin 2] ++ [(findValue "a" [("a", F.fin 3)]).getD F.nan] ∧
      (g1.queue ≠ [] →
        g1.queue.getLast? = some ((findValue "a" [("a", F.fin 3)]).getD F.nan)) :=
  sliding_window 2 [("a", F.fin 3)] [("a", ⟨[F.fin 1, F.fin 2], F.fin 2, F.fin 1⟩)] "a"
    ⟨[F.fin 1, F.fin 2], F.fin 2, F.fin 1⟩ (by decide)

/-- C6: in every state that `put` reaches from the empty map with finite
samples, every graph whose history has a present value has finite bounds
with `min ≤ max`. -/
theorem bounds_ordered (cap : Nat) (calls : List GraphValues)
    (hfin : ∀ values ∈ calls, finiteValues values) (e : String × Graph)
    (he : e ∈ runPuts cap calls) (hp : present e.2.queue ≠ []) :
    ∃ m M, e.2.min = F.fin m ∧ e.2.max = F.fin M ∧ m ≤ M := by
  obtain ⟨m, M, hm, hM, hb⟩ := enclosed_of_reachable cap calls hfin e he
  obtain ⟨p, hq⟩ := List.exists_mem_of_ne_nil _ hp
  exact ⟨m, M, hm, hM, le_trans (hb p hq).1 (hb p hq).2⟩

/-- Witness of C6: the limit 2 and the calls `put({a: -1})`, `put({a: -3})`,
`put({a: -2})`, which leave the history `[-3, -2]` with min -3 and max 0. -/
theorem bounds_ordered_witness :
    (("a", ⟨[F.fin (-3), F.fin (-2)], F.fin 0, F.fin (-3)⟩) : String × Graph) ∈
        runPuts 2 [[("a", F.fin (-1))], [("a", F.fin (-3))], [("a", F.fin (-2))]] ∧
      ∃ m M, (⟨[F.fin (-3), F.fin (-2)], F.fin 0, F.fin (-3)⟩ : Graph).min = F.fin m ∧
        (⟨[F.fin (-3), F.fin (-2)], F.fin 0, F.fin (-3)⟩ : Graph).max = F.fin M ∧ m ≤ M :=
  ⟨by decide,
    bounds_ordered 2 [[("a", F.fin (-1))], [("a", F.fin (-3))], [("a", F.fin (-2))]]
      (by decide) ("a", ⟨[F.fin (-3), F.fin (-2)], F.fin 0, F.fin (-3)⟩) (by decide)
      (by decide)⟩

/-- C7: at the boundary index 5 the colour is not the fallback gray: the test
of line 106 is `graph_i <= usable_colors_count`, so the index 5 is looked up
in the array of 5 colours, one past its last element. -/
theorem palette_boundary_index :
    usable_colors_count = 5 ∧ graphColor 5 = none ∧
      graphColor 5 ≠ some ⟨255, 200, 200, 200⟩ ∧ graphColor 6 = some ⟨255, 200, 200, 200⟩ := by
  decide

/-- C8: the max is not recomputed to the maximum of the values that stay when
all of them are negative.  With limit 2, after `put({a: -1})`, `put({a: -3})`
the history is `[-1, -3]` with max -1; `put({a: -2})` removes -1, which equals
the max, and leaves the history `[-3, -2]` with max 0, not -2. -/
theorem max_recomputed_from_zero :
    runPuts 2 [[("a", F.fin (-1))], [("a", F.fin (-3))]] =
        [("a", ⟨[F.fin (-1), F.fin (-3)], F.fin (-1), F.fin (-3)⟩)] ∧
      runPuts 2 [[("a", F.fin (-1))], [("a", F.fin (-3))], [("a", F.fin (-2))]] =
        [("a", ⟨[F.fin (-3), F.fin (-2)], F.fin 0, F.fin (-3)⟩)] := by
  decide

/-- One removal of an entry equal to the min, when a present value stays:
the new min is the minimum of the present values that stay. -/
theorem min_after_one_erase (e : F) (rest : List F) (mx mn : F)
    (h : Enclosed ⟨e :: rest, mx, mn⟩) (heq : F.eq e mn = true) (hpres : present rest ≠ []) :
    ∃ m, minAfterErase e rest (maxAfterErase e rest mx) mn = F.fin m ∧ m ∈ present rest ∧
      ∀ p ∈ present rest, m ≤ p := by
  obtain ⟨M1, hM1, hle⟩ := maxAfterErase_spec e rest mx mn h
  unfold minAfterErase
  rw [if_pos heq, hM1]
  obtain ⟨m, h1, _, h3, h4⟩ := scanMin_spec rest M1
  refine ⟨m, h1, ?_, h3⟩
  rcases h4 with h4 | h4
  · obtain ⟨p, hp⟩ := List.exists_mem_of_ne_nil _ hpres
    have hpm : p = m := le_antisymm (h4 ▸ hle p hp) (h3 p hp)
    rw [← hpm]
    exact hp
  · exact h4

/-- C9: in every state that `put` reaches from the empty map with finite
samples, for every call with finite samples and every tracked graph: when the
call removes the oldest entry `e` of the extended history, `e` equals the min
current at that moment, and a present value remains in the history after the
call, then the min after the call is the minimum of the present values of
that history.  With a limit of at least one the history after the call is
the rest of the extended history and the min is the result of the scan of it
that starts from the max after the call. -/
theorem min_recomputed_on_erase (cap : Nat) (calls : List GraphValues)
    (hfin : ∀ values ∈ calls, finiteValues values) (values : GraphValues)
    (hvalues : finiteValues values) (name : String) (g : Graph)
    (hg : findGraph name (runPuts cap calls) = some g) (e : F) (rest : List F)
    (hq : (appendValue (findValue name values) g).queue = e :: rest)
    (hlim : cap < (e :: rest).length)
    (heq : F.eq e (appendValue (findValue name values) g).min = true) :
    ∃ g1, findGraph name (put cap values (runPuts cap calls)) = some g1 ∧
      (present g1.queue ≠ [] →
        ∃ m, g1.min = F.fin m ∧ m ∈ present g1.queue ∧ ∀ p ∈ present g1.queue, m ≤ p) ∧
      (1 ≤ cap → g1.queue = rest ∧ g1.min = scanMin g1.max rest) := by
  have hmem := findGraph_mem name g _ hg
  have hencl : Enclosed g := enclosed_of_reachable cap calls hfin _ hmem
  have hencl1 : Enclosed (appendValue (findValue name values) g) := by
    cases hs : findValue name values with
    | none => exact enclosed_appendValue_none g hencl
    | some v => exact enclosed_appendValue_some g v (hvalues _ (findValue_mem _ _ _ hs)) hencl
  have hone : 1 ≤ cap → updatedGraph cap (findValue name values) g =
      ⟨rest, maxAfterErase e rest (appendValue (findValue name values) g).max,
        minAfterErase e rest (maxAfterErase e rest (appendValue (findValue name values) g).max)
          (appendValue (findValue name values) g).min⟩ := by
    intro hpos
    have hlen : g.queue.length ≤ cap := length_le_of_reachable cap hpos calls _ hmem
    have hrest : rest.length = cap := by
      have h1 := congrArg List.length hq
      rw [appendValue_queue] at h1
      simp only [List.length_append, List.length_singleton, List.length_cons,
        List.length_nil] at h1 hlim
      omega
    show eraseBeyondLimit cap (appendValue (findValue name values) g).queue _ _ = _
    rw [hq]
    exact eraseBeyondLimit_one cap e rest _ _ hrest
  refine ⟨_, findGraph_put_of_some cap values name g _ hg, ?_, ?_⟩
  · intro hpres
    rcases Nat.eq_zero_or_pos cap with h0 | hpos
    · exfalso
      apply hpres
      have hle := updatedGraph_length_le cap (findValue name values) g
      rw [h0] at hle ⊢
      rw [List.length_eq_zero.mp (Nat.le_zero.mp hle)]
      rfl
    · rw [hone hpos] at hpres ⊢
      have hstruct : Enclosed ⟨e :: rest, (appendValue (findValue name values) g).max,
          (appendValue (findValue name values) g).min⟩ := by
        rw [← hq]
        exact hencl1
      exact min_after_one_erase e rest _ _ hstruct heq hpres
  · intro hpos
    rw [hone hpos]
    refine ⟨rfl, ?_⟩
    show minAfterErase e rest _ _ = _
    unfold minAfterErase
    rw [if_pos heq]

/-- Witness of C9: the limit 2, the history `[1, 7]` with min 1 and
`put({a: 4})`, which removes 1 and leaves `[7, 4]` with min 4. -/
theorem min_recomputed_on_erase_witness :
    ∃ g1, findGraph "a" (put 2 [("a", F.fin 4)] (runPuts 2 [[("a", F.fin 1)], [("a", F.fin 7)]])) =
        some g1 ∧
      (present g1.queue ≠ [] →
        ∃ m, g1.min = F.fin m ∧ m ∈ present g1.queue ∧ ∀ p ∈ present g1.queue, m ≤ p) ∧
      (1 ≤ 2 → g1.queue = [F.fin 7, F.fin 4] ∧ g1.min = scanMin g1.max [F.fin 7, F.fin 4]) :=
  min_recomputed_on_erase 2 [[("a", F.fin 1)], [("a", F.fin 7)]] (by decide) [("a", F.fin 4)]
    (by decide) "a" ⟨[F.fin 1, F.fin 7], F.fin 7, F.fin 1⟩ (by decide) (F.fin 1)
    [F.fin 7, F.fin 4] (by decide) (by decide) (by decide)

/-! ## Further lemmas on `put` -/

theorem findValue_none_cons (name k : String) (v : F) (rest : GraphValues)
    (h : findValue name ((k, v) :: rest) = none) : k ≠ name ∧ findValue name rest = none := by
  by_cases hk : k = name
  · simp [findValue, hk] at h
  · exact ⟨hk, by simpa [findValue, hk] using h⟩

theorem findGraph_addNewGraphs_none (cap : Nat) (name : String) (values : GraphValues)
    (log : Log) (h : findGraph name log = none) (hv : findValue name values = none) :
    findGraph name (addNewGraphs cap values log) = none := by
  induction values generalizing log with
  | nil => simpa [addNewGraphs] using h
  | cons hd rest ih =>
    obtain ⟨k, v⟩ := hd
    obtain ⟨hk, hrest⟩ := findValue_none_cons name k v rest hv
    unfold addNewGraphs
    cases hk1 : findGraph k log with
    | some g1 => exact ih log h hrest
    | none => exact ih _ (by rw [findGraph_insertGraph_ne name k _ log hk]; exact h) hrest

/-- A name that is not in the map and has no value in the call is not in the
map after `put`. -/
theorem findGraph_put_none (cap : Nat) (values : GraphValues) (name : String) (log : Log)
    (h : findGraph name log = none) (hv : findValue name values = none) :
    findGraph name (put cap values log) = none := by
  unfold put
  apply findGraph_addNewGraphs_none _ _ _ _ _ hv
  rw [filterMap_updateEntry, findGraph_map_update, h]
  rfl

theorem newGraph_length (cap : Nat) (hcap : 1 ≤ cap) (hu32 : cap < U32_SIZE) (v : F) :
    (newGraph cap v).queue.length = cap := by
  unfold U32_SIZE at hu32
  simp only [newGraph, U32_SIZE, List.length_append, List.length_replicate,
    List.length_singleton]
  omega

theorem updatedGraph_length (cap : Nat) (sample : Option F) (g : Graph) :
    (updatedGraph cap sample g).queue.length = min (g.queue.length + 1) cap := by
  rw [updatedGraph_queue]
  simp only [List.length_drop, List.length_append, List.length_singleton]
  omega

/-- With a limit `1 ≤ m_log_max_size < 2^32` every queue of a reachable state
has exactly `m_log_max_size` entries. -/
theorem length_eq_of_reachable (cap : Nat) (hcap : 1 ≤ cap) (hu32 : cap < U32_SIZE)
    (calls : List GraphValues) : ∀ e ∈ runPuts cap calls, e.2.queue.length = cap :=
  runPuts_invariant (fun g => g.queue.length = cap) (fun _ => True) cap
    (fun v _ => newGraph_length cap hcap hu32 v)
    (fun g hg => by
      have h := updatedGraph_length cap none g
      simp only at hg ⊢
      omega)
    (fun g v hg _ => by
      have h := updatedGraph_length cap (some v) g
      simp only at hg ⊢
      omega) calls
    (fun _ _ _ _ => trivial)

theorem getLast?_append_singleton (l : List F) (x : F) : (l ++ [x]).getLast? = some x := by
  rw [List.getLast?_append]
  rfl

theorem maxAfterErase_nan (rest : List F) (mx : F) : maxAfterErase F.nan rest mx = mx := by
  simp [maxAfterErase, F.eq]

theorem minAfterErase_nan (rest : List F) (mx mn : F) : minAfterErase F.nan rest mx mn = mn := by
  simp [minAfterErase, F.eq]

theorem appendValue_bounds_fin (g : Graph) (M m v : ℚ) (hM : g.max = F.fin M)
    (hm : g.min = F.fin m) :
    (appendValue (some (F.fin v)) g).max = F.fin (max M v) ∧
      (appendValue (some (F.fin v)) g).min = F.fin (min m v) := by
  constructor
  · simp only [appendValue, hM, F.gt, F.lt, decide_eq_true_eq]
    by_cases hlt : M < v
    · simp [hlt, max_eq_right hlt.le]
    · simp [hlt, max_eq_left (not_lt.mp hlt)]
  · simp only [appendValue, hm, F.eq, F.lt, decide_True, Bool.true_and, decide_eq_true_eq]
    by_cases hlt : v < m
    · simp [hlt, min_eq_right hlt.le]
    · simp [hlt, min_eq_left (not_lt.mp hlt)]

/-- When every entry that the loop of lines 54-72 removes is NaN, the loop
keeps max and min. -/
theorem eraseBeyondLimit_all_nan (cap : Nat) (q : List F) (mx mn : F)
    (h : ∀ e ∈ q.take (q.length - cap), e = F.nan) :
    eraseBeyondLimit cap q mx mn = ⟨q.drop (q.length - cap), mx, mn⟩ := by
  induction q generalizing mx mn with
  | nil => simp [eraseBeyondLimit]
  | cons e rest ih =>
    unfold eraseBeyondLimit
    by_cases hlim : rest.length + 1 > cap
    · have hlen : (e :: rest).length - cap = (rest.length - cap) + 1 := by
        simp only [List.length_cons]; omega
      rw [hlen, List.take_succ_cons] at h
      have he : e = F.nan := h e (List.mem_cons_self _ _)
      subst he
      simp only [hlim, if_true, maxAfterErase_nan, minAfterErase_nan]
      rw [ih mx mn (fun x hx => h x (List.mem_cons_of_mem _ hx)), hlen, List.drop_succ_cons]
    · have hlen : (e :: rest).length - cap = 0 := by
        simp only [List.length_cons]; omega
      simp only [hlim, if_false]
      rw [hlen, List.drop_zero]

/-! ## Further claims on `put` -/

/-- C14: for every map, so for every reachable state, every limit, every call
and every tracked graph such that every entry the call removes from the
history is NaN (in a reachable state with a limit of at least one: the one
oldest entry): when the name has no value in the call, max and min are
unchanged by the call; when the name has the value `v`, max and min after the
call are those of the update of lines 48-51, which for finite bounds and a
finite `v` are `max(old max, v)` and `min(old min, v)`. -/
theorem missing_marker_keeps_bounds (cap : Nat) (values : GraphValues) (log : Log)
    (name : String) (g : Graph) (hg : findGraph name log = some g)
    (hev : ∀ e ∈ (appendValue (findValue name values) g).queue.take
      ((appendValue (findValue name values) g).queue.length - cap), e = F.nan) :
    ∃ g1, findGraph name (put cap values log) = some g1 ∧
      (findValue name values = none → g1.max = g.max ∧ g1.min = g.min) ∧
      (∀ v, findValue name values = some v →
        g1.max = (if F.gt v g.max then v else g.max) ∧
          g1.min = (if F.eq v v && F.lt v g.min then v else g.min)) ∧
      (∀ v M m, findValue name values = some (F.fin v) → g.max = F.fin M → g.min = F.fin m →
        g1.max = F.fin (max M v) ∧ g1.min = F.fin (min m v)) := by
  have hupd : updatedGraph cap (findValue name values) g =
      ⟨(appendValue (findValue name values) g).queue.drop
          ((appendValue (findValue name values) g).queue.length - cap),
        (appendValue (findValue name values) g).max,
        (appendValue (findValue name values) g).min⟩ :=
    eraseBeyondLimit_all_nan cap _ _ _ hev
  refine ⟨_, findGraph_put_of_some cap values name g log hg, ?_, ?_, ?_⟩
  · intro hnone
    rw [hupd, hnone]
    exact ⟨rfl, rfl⟩
  · intro v hv
    rw [hupd, hv]
    exact ⟨rfl, rfl⟩
  · intro v M m hv hM hm
    rw [hupd, hv]
    exact appendValue_bounds_fin g M m v hM hm

/-- Witness of C14: the limit 2, the history `[NaN, 5]` reached by
`put({a: 5})`, and the call `put({a: 3})`, which removes the NaN: the bounds
after the call are max(5, 3) and min(5, 3). -/
theorem missing_marker_keeps_bounds_witness :
    ∃ g1, findGraph "a" (put 2 [("a", F.fin 3)] (runPuts 2 [[("a", F.fin 5)]])) = some g1 ∧
      g1.max = F.fin (max 5 3) ∧ g1.min = F.fin (min 5 3) := by
  obtain ⟨g1, h1, _, _, h4⟩ := missing_marker_keeps_bounds 2 [("a", F.fin 3)]
    (runPuts 2 [[("a", F.fin 5)]]) "a" ⟨[F.nan, F.fin 5], F.fin 5, F.fin 5⟩ (by decide)
    (by decide)
  exact ⟨g1, h1, h4 3 5 5 (by decide) rfl rfl⟩

/-- C15: for every limit `1 ≤ m_log_max_size < 2^32` and every state that `put`
reaches from the empty map, every graph has a history of exactly
`m_log_max_size` entries; a further call of `put` removes exactly one entry,
the oldest, from every graph tracked before it, and in the state after the
call the last slot of every tracked graph, the slot `m_log_max_size - 1`,
holds the entry written by the call: the value of the name, or NaN when the
call has no value for it. -/
theorem right_edge_alignment (cap : Nat) (hcap : 1 ≤ cap) (hu32 : cap < U32_SIZE)
    (calls : List GraphValues) (values : GraphValues) :
    (∀ e ∈ runPuts cap calls, e.2.queue.length = cap) ∧
      (∀ name g, findGraph name (runPuts cap calls) = some g →
        ∃ g1, findGraph name (put cap values (runPuts cap calls)) = some g1 ∧
          g1.queue = g.queue.drop 1 ++ [(findValue name values).getD F.nan]) ∧
      (∀ name g1, findGraph name (put cap values (runPuts cap calls)) = some g1 →
        g1.queue.length = cap ∧
          g1.queue.getLast? = some ((findValue name values).getD F.nan) ∧
          g1.queue[cap - 1]? = some ((findValue name values).getD F.nan)) := by
  have hlen := length_eq_of_reachable cap hcap hu32 calls
  have hslot : ∀ (q : List F) (x : F), q.length = cap → q.getLast? = some x →
      q.length = cap ∧ q.getLast? = some x ∧ q[cap - 1]? = some x := by
    intro q x h1 h2
    refine ⟨h1, h2, ?_⟩
    rw [← h1, ← List.getLast?_eq_getElem?]
    exact h2
  have hupd : ∀ name g, findGraph name (runPuts cap calls) = some g →
      (updatedGraph cap (findValue name values) g).queue =
        g.queue.drop 1 ++ [(findValue name values).getD F.nan] := by
    intro name g hg
    have hl : g.queue.length = cap := hlen _ (findGraph_mem name g _ hg)
    rw [updatedGraph_queue, hl, Nat.add_sub_cancel_left,
      List.drop_append_of_le_length (by omega)]
  refine ⟨hlen, ?_, ?_⟩
  · intro name g hg
    exact ⟨_, findGraph_put_of_some cap values name g _ hg, hupd name g hg⟩
  · intro name g1 hg1
    cases hg : findGraph name (runPuts cap calls) with
    | some g =>
      rw [findGraph_put_of_some cap values name g _ hg] at hg1
      have hl : g.queue.length = cap := hlen _ (findGraph_mem name g _ hg)
      have h1 : g1 = updatedGraph cap (findValue name values) g := (Option.some.inj hg1).symm
      subst h1
      apply hslot
      · rw [updatedGraph_length, hl]
        omega
      · rw [hupd name g hg]
        exact getLast?_append_singleton _ _
    | none =>
      cases hv : findValue name values with
      | none =>
        rw [findGraph_put_none cap values name _ hg hv] at hg1
        exact Option.noConfusion hg1
      | some v =>
        rw [findGraph_put_of_none cap values name v _ hg hv] at hg1
        have h1 : g1 = newGraph cap v := (Option.some.inj hg1).symm
        subst h1
        exact hslot _ _ (newGraph_length cap hcap hu32 v) (getLast?_append_singleton _ _)

/-- Witness of C15: the limit 2, the calls `put({a: 1})`, `put({b: 2})` and the
further call `put({a: 3})`. -/
theorem right_edge_alignment_witness :
    (∀ e ∈ runPuts 2 [[("a", F.fin 1)], [("b", F.fin 2)]], e.2.queue.length = 2) ∧
      (∀ name g, findGraph name (runPuts 2 [[("a", F.fin 1)], [("b", F.fin 2)]]) = some g →
        ∃ g1, findGraph name (put 2 [("a", F.fin 3)]
            (runPuts 2 [[("a", F.fin 1)], [("b", F.fin 2)]])) = some g1 ∧
          g1.queue = g.queue.drop 1 ++ [(findValue name [("a", F.fin 3)]).getD F.nan]) ∧
      (∀ name g1, findGraph name (put 2 [("a", F.fin 3)]
          (runPuts 2 [[("a", F.fin 1)], [("b", F.fin 2)]])) = some g1 →
        g1.queue.length = 2 ∧
          g1.queue.getLast? = some ((findValue name [("a", F.fin 3)]).getD F.nan) ∧
          g1.queue[2 - 1]? = some ((findValue name [("a", F.fin 3)]).getD F.nan)) :=
  right_edge_alignment 2 (by decide) (by decide) [[("a", F.fin 1)], [("b", F.fin 2)]]
    [("a", F.fin 3)]

/-- C17: in every state that `put` reaches from the empty map with finite
samples the bounds of every graph are finite and every present value `p` of
its history has `min ≤ p ≤ max`. -/
theorem enclosure_invariant (cap : Nat) (calls : List GraphValues)
    (hfin : ∀ values ∈ calls, finiteValues values) (e : String × Graph)
    (he : e ∈ runPuts cap calls) :
    ∃ m M, e.2.min = F.fin m ∧ e.2.max = F.fin M ∧
      ∀ p ∈ present e.2.queue, m ≤ p ∧ p ≤ M :=
  enclosed_of_reachable cap calls hfin e he

/-- Witness of C17: the limit 2 and the calls `put({a: 5})`, `put({})`,
`put({})`, `put({a: 3})`, which leave the history `[NaN, 3]` with min 0 and
max 3: the bounds enclose the value 3 and min is not tight. -/
theorem enclosure_invariant_witness :
    (("a", ⟨[F.nan, F.fin 3], F.fin 3, F.fin 0⟩) : String × Graph) ∈
        runPuts 2 [[("a", F.fin 5)], [], [], [("a", F.fin 3)]] ∧
      ∃ m M, (⟨[F.nan, F.fin 3], F.fin 3, F.fin 0⟩ : Graph).min = F.fin m ∧
        (⟨[F.nan, F.fin 3], F.fin 3, F.fin 0⟩ : Graph).max = F.fin M ∧
        ∀ p ∈ present (⟨[F.nan, F.fin 3], F.fin 3, F.fin 0⟩ : Graph).queue, m ≤ p ∧ p ≤ M :=
  ⟨by decide,
    enclosure_invariant 2 [[("a", F.fin 5)], [], [], [("a", F.fin 3)]] (by decide)
      ("a", ⟨[F.nan, F.fin 3], F.fin 3, F.fin 0⟩) (by decide)⟩

/-- C19: for every map and every call, a name is tracked after `put` exactly
when it was tracked before the call or has a value in the call; no graph is
removed: the body of the first loop keeps every entry, because the scan for
emptiness of a queue that ends with the appended NaN never leaves `empty`
true. -/
theorem tracked_set_grows (cap : Nat) (values : GraphValues) (log : Log) (name : String) :
    (findGraph name (put cap values log)).isSome =
        ((findGraph name log).isSome || (findValue name values).isSome) ∧
      (∀ e : String × Graph, (updateEntry cap values e).isSome = true) ∧
      (∀ queue : List F, scanEmpty (queue ++ [F.nan]) = false) ∧
      ∀ value : F, F.ne value F.nan = true := by
  refine ⟨?_, fun e => by rw [updateEntry_eq]; rfl, fun queue => scanEmpty_append queue F.nan,
    F.ne_nan⟩
  cases hg : findGraph name log with
  | some g => rw [findGraph_put_of_some cap values name g log hg]; rfl
  | none =>
    cases hv : findValue name values with
    | none => rw [findGraph_put_none cap values name log hg hv]; rfl
    | some v => rw [findGraph_put_of_none cap values name v log hg hv]; rfl

/-! ## The max of graphs without negative samples -/

theorem nonneg_of_sample (v : F) (h : F.eq v v = true ∧ F.lt v (F.fin 0) = false) :
    ∃ q : ℚ, v = F.fin q ∧ 0 ≤ q := by
  cases v with
  | nan => simp [F.eq] at h
  | fin q =>
    refine ⟨q, rfl, ?_⟩
    have h2 := h.2
    simp only [F.lt, decide_eq_false_iff_not, not_lt] at h2
    exact h2

theorem maxTight_newGraph (cap : Nat) (v : F)
    (hv : F.eq v v = true ∧ F.lt v (F.fin 0) = false) : MaxTight (newGraph cap v) := by
  obtain ⟨q, rfl, hq⟩ := nonneg_of_sample v hv
  have hp : present (newGraph cap (F.fin q)).queue = [q] := by
    unfold newGraph
    rw [present_append, present_replicate_nan]
    rfl
  refine ⟨q, rfl, hq, ?_, Or.inr ?_⟩
  · intro p hmem
    rw [hp, List.mem_singleton] at hmem
    subst hmem
    exact ⟨hq, le_refl _⟩
  · rw [hp]
    exact List.mem_singleton_self q

theorem maxTight_appendValue_none (g : Graph) (h : MaxTight g) :
    MaxTight (appendValue none g) := by
  obtain ⟨M, hM, h0, hp, hin⟩ := h
  have hq : present (appendValue none g).queue = present g.queue := by
    simp only [appendValue, present_append, present, List.append_nil]
  exact ⟨M, hM, h0, by rw [hq]; exact hp, by rw [hq]; exact hin⟩

theorem maxTight_appendValue_some (g : Graph) (v : F)
    (hv : F.eq v v = true ∧ F.lt v (F.fin 0) = false) (h : MaxTight g) :
    MaxTight (appendValue (some v) g) := by
  obtain ⟨M, hM, h0, hp, hin⟩ := h
  obtain ⟨q, rfl, hq0⟩ := nonneg_of_sample v hv
  have hq : present (appendValue (some (F.fin q)) g).queue = present g.queue ++ [q] := by
    simp only [appendValue, present_append, present]
  have hmax : (appendValue (some (F.fin q)) g).max = F.fin (max M q) := by
    simp only [appendValue, hM, F.gt, F.lt, decide_eq_true_eq]
    by_cases hlt : M < q
    · simp [hlt, max_eq_right hlt.le]
    · simp [hlt, max_eq_left (not_lt.mp hlt)]
  refine ⟨max M q, hmax, le_trans h0 (le_max_left _ _), ?_, ?_⟩
  · intro p hmem
    rw [hq, List.mem_append, List.mem_singleton] at hmem
    rcases hmem with hmem | rfl
    · exact ⟨(hp p hmem).1, le_trans (hp p hmem).2 (le_max_left _ _)⟩
    · exact ⟨hq0, le_max_right _ _⟩
  · rw [hq]
    rcases le_total M q with hle | hle
    · right
      rw [max_eq_right hle]
      exact List.mem_append_right _ (List.mem_singleton_self q)
    · rw [max_eq_left hle]
      rcases hin with hin | hin
      · exact Or.inl hin
      · exact Or.inr (List.mem_append_left _ hin)

theorem maxTight_erase_step (e : F) (rest : List F) (mx mn mn1 : F)
    (h : MaxTight ⟨e :: rest, mx, mn⟩) : MaxTight ⟨rest, maxAfterErase e rest mx, mn1⟩ := by
  obtain ⟨M, hM, h0, hp, hin⟩ := h
  simp only at hM hp hin
  have hrest : ∀ p ∈ present rest, 0 ≤ p ∧ p ≤ M :=
    fun p hmem => hp p (mem_present_cons p e rest hmem)
  unfold maxAfterErase
  by_cases heq : F.eq e mx = true
  · obtain ⟨M1, h1, h2, h3, h4⟩ := scanMax_spec rest 0
    rw [if_pos heq]
    exact ⟨M1, h1, h2, fun p hmem => ⟨(hrest p hmem).1, h3 p hmem⟩, h4⟩
  · rw [if_neg heq]
    refine ⟨M, hM, h0, hrest, ?_⟩
    rcases hin with hin | hin
    · exact Or.inl hin
    · right
      cases e with
      | nan => simpa [present] using hin
      | fin q =>
        simp only [present, List.mem_cons] at hin
        rcases hin with hin | hin
        · exfalso
          apply heq
          rw [hM, hin]
          simp [F.eq]
        · exact hin

theorem maxTight_eraseBeyondLimit (cap : Nat) (q : List F) (mx mn : F)
    (h : MaxTight ⟨q, mx, mn⟩) : MaxTight (eraseBeyondLimit cap q mx mn) := by
  induction q generalizing mx mn with
  | nil => simpa [eraseBeyondLimit] using h
  | cons e rest ih =>
    unfold eraseBeyondLimit
    by_cases hlim : rest.length + 1 > cap
    · simp only [hlim, if_true]
      exact ih _ _ (maxTight_erase_step e rest mx mn _ h)
    · simpa [hlim] using h

/-- In every state that `put` reaches from the empty map with finite samples
that are not negative, the max of every graph is the maximum of 0 and the
present values of its history. -/
theorem maxTight_of_reachable (cap : Nat) (calls : List GraphValues)
    (hpos : ∀ values ∈ calls, nonNegValues values) :
    ∀ e ∈ runPuts cap calls, MaxTight e.2 :=
  runPuts_invariant MaxTight (fun v => F.eq v v = true ∧ F.lt v (F.fin 0) = false) cap
    (maxTight_newGraph cap)
    (fun g hg => maxTight_eraseBeyondLimit cap _ _ _ (maxTight_appendValue_none g hg))
    (fun g v hg hv => maxTight_eraseBeyondLimit cap _ _ _ (maxTight_appendValue_some g v hv hg))
    calls hpos

/-- C18: for every limit (in particular every limit of at least one) and
every state that `put` reaches from the empty map with samples that are finite
and not negative, every graph whose history has a present value has a max
that is the maximum of the present values of its history. -/
theorem max_exact_for_nonnegative (cap : Nat) (calls : List GraphValues)
    (hpos : ∀ values ∈ calls, nonNegValues values) (e : String × Graph)
    (he : e ∈ runPuts cap calls) (hp : present e.2.queue ≠ []) :
    ∃ M, e.2.max = F.fin M ∧ M ∈ present e.2.queue ∧ ∀ p ∈ present e.2.queue, p ≤ M := by
  obtain ⟨M, hM, _, hb, hin⟩ := maxTight_of_reachable cap calls hpos e he
  refine ⟨M, hM, ?_, fun p hmem => (hb p hmem).2⟩
  rcases hin with hin | hin
  · obtain ⟨p, hmem⟩ := List.exists_mem_of_ne_nil _ hp
    have hpM : p = M := le_antisymm (hb p hmem).2 (hin ▸ (hb p hmem).1)
    rw [← hpM]
    exact hmem
  · exact hin

/-- Witness of C18: the limit 2 and the calls `put({a: 5})`, `put({})`,
`put({})`, `put({a: 3})`: the history became all NaN in between and ends as
`[NaN, 3]` with max 3. -/
theorem max_exact_for_nonnegative_witness :
    (("a", ⟨[F.nan, F.fin 3], F.fin 3, F.fin 0⟩) : String × Graph) ∈
        runPuts 2 [[("a", F.fin 5)], [], [], [("a", F.fin 3)]] ∧
      ∃ M, (⟨[F.nan, F.fin 3], F.fin 3, F.fin 0⟩ : Graph).max = F.fin M ∧
        M ∈ present (⟨[F.nan, F.fin 3], F.fin 3, F.fin 0⟩ : Graph).queue ∧
        ∀ p ∈ present (⟨[F.nan, F.fin 3], F.fin 3, F.fin 0⟩ : Graph).queue, p ≤ M :=
  ⟨by decide,
    max_exact_for_nonnegative 2 [[("a", F.fin 5)], [], [], [("a", F.fin 3)]] (by decide)
      ("a", ⟨[F.nan, F.fin 3], F.fin 3, F.fin 0⟩) (by decide) (by decide)⟩

/-! ## Lemmas on the rounding to binary32 -/

theorem pow2_eq_zpow (z : Int) : pow2 z = (2 : ℚ) ^ z := by
  unfold pow2
  by_cases h : 0 ≤ z
  · rw [if_pos h]
    obtain ⟨n, rfl⟩ := Int.eq_ofNat_of_zero_le h
    simp
  · rw [if_neg h]
    obtain ⟨n, rfl⟩ := Int.exists_eq_neg_ofNat (le_of_lt (not_le.mp h))
    simp [zpow_neg]

theorem pow2_pos (z : Int) : 0 < pow2 z := by
  rw [pow2_eq_zpow]
  positivity

theorem pow2_add (a b : Int) : pow2 (a + b) = pow2 a * pow2 b := by
  simp only [pow2_eq_zpow]
  exact zpow_add₀ (by norm_num) a b

theorem pow2_le (a b : Int) (h : a ≤ b) : pow2 a ≤ pow2 b := by
  simp only [pow2_eq_zpow]
  exact zpow_le_zpow_right₀ (by norm_num) h

theorem pow2_natCast (n : Nat) : pow2 (n : Int) = ((2 ^ n : Int) : ℚ) := by
  rw [pow2_eq_zpow]
  simp

theorem binadeFrom_spec (a : ℚ) (k : Nat) :
    (-126 ≤ binadeFrom a k ∧ binadeFrom a k ≤ (k : Int) - 126) ∧
      (-126 < binadeFrom a k → pow2 (binadeFrom a k) ≤ a) ∧
      ∀ j : Int, binadeFrom a k < j → j ≤ (k : Int) - 126 → a < pow2 j := by
  induction k with
  | zero =>
    refine ⟨⟨by simp [binadeFrom], by simp [binadeFrom]⟩, ?_, ?_⟩
    · intro h
      simp [binadeFrom] at h
    · intro j h1 h2
      simp only [binadeFrom] at h1
      simp only [Nat.cast_zero] at h2
      omega
  | succ k ih =>
    obtain ⟨⟨h1, h2⟩, h3, h4⟩ := ih
    unfold binadeFrom
    by_cases hle : pow2 ((k : Int) - 125) ≤ a
    · rw [if_pos hle]
      refine ⟨⟨by omega, by push_cast; omega⟩, fun _ => hle, ?_⟩
      intro j hj1 hj2
      push_cast at hj2
      omega
    · rw [if_neg hle]
      refine ⟨⟨h1, by push_cast; omega⟩, h3, ?_⟩
      intro j hj1 hj2
      push_cast at hj2
      by_cases hj : j ≤ (k : Int) - 126
      · exact h4 j hj1 hj
      · have hjk : j = (k : Int) - 125 := by omega
        rw [hjk]
        exact not_le.mp hle

theorem binade_range (a : ℚ) : -126 ≤ binade a ∧ binade a ≤ 127 := by
  have h := (binadeFrom_spec a 253).1
  unfold binade
  constructor
  · exact h.1
  · have h2 := h.2
    norm_num at h2
    exact h2

theorem binade_le (a : ℚ) (h : -126 < binade a) : pow2 (binade a) ≤ a :=
  (binadeFrom_spec a 253).2.1 h

theorem binade_lt (a : ℚ) (j : Int) (h1 : binade a < j) (h2 : j ≤ 127) : a < pow2 j := by
  apply (binadeFrom_spec a 253).2.2 j h1
  norm_num
  exact h2

theorem binade_mono (a b : ℚ) (h : a ≤ b) : binade a ≤ binade b := by
  by_contra hlt
  have hlt1 : binade b < binade a := not_le.mp hlt
  have hra := binade_range a
  have hrb := binade_range b
  have h1 : pow2 (binade a) ≤ a := binade_le a (by omega)
  have h2 : b < pow2 (binade a) := binade_lt b _ hlt1 hra.2
  linarith

theorem roundHalfEven_bounds (t : ℚ) : ⌊t⌋ ≤ roundHalfEven t ∧ roundHalfEven t ≤ ⌊t⌋ + 1 := by
  unfold roundHalfEven
  split_ifs <;> constructor <;> omega

theorem roundHalfEven_intCast (n : Int) : roundHalfEven (n : ℚ) = n := by
  unfold roundHalfEven
  simp

theorem roundHalfEven_mono (s t : ℚ) (h : s ≤ t) : roundHalfEven s ≤ roundHalfEven t := by
  rcases lt_or_eq_of_le (Int.floor_mono h) with hlt | heq
  · have h1 := (roundHalfEven_bounds s).2
    have h2 := (roundHalfEven_bounds t).1
    omega
  · unfold roundHalfEven
    rw [heq]
    have hfrac : s - (⌊t⌋ : ℚ) ≤ t - (⌊t⌋ : ℚ) := by linarith
    split_ifs <;> first | omega | (exfalso; linarith)

theorem le_roundHalfEven (n : Int) (t : ℚ) (h : (n : ℚ) ≤ t) : n ≤ roundHalfEven t := by
  have h1 := roundHalfEven_mono _ _ h
  rwa [roundHalfEven_intCast] at h1

theorem roundHalfEven_le (n : Int) (t : ℚ) (h : t ≤ (n : ℚ)) : roundHalfEven t ≤ n := by
  have h1 := roundHalfEven_mono _ _ h
  rwa [roundHalfEven_intCast] at h1

theorem ulp_pos (a : ℚ) : 0 < ulp a := pow2_pos _

theorem roundMag_nonneg (a : ℚ) (h : 0 ≤ a) : 0 ≤ roundMag a := by
  unfold roundMag
  have h1 : (0 : Int) ≤ roundHalfEven (a / ulp a) :=
    le_roundHalfEven 0 _ (by simpa using div_nonneg h (ulp_pos a).le)
  exact mul_nonneg (by exact_mod_cast h1) (ulp_pos a).le

theorem pow2_binade_eq (e : Int) : pow2 e = ((2 ^ 23 : Int) : ℚ) * pow2 (e - 23) := by
  have h : e = 23 + (e - 23) := by omega
  conv_lhs => rw [h, pow2_add]
  congr 1

theorem pow2_binade_succ_eq (e : Int) : pow2 (e + 1) = ((2 ^ 24 : Int) : ℚ) * pow2 (e - 23) := by
  have h : e + 1 = 24 + (e - 23) := by omega
  conv_lhs => rw [h, pow2_add]
  congr 1

theorem le_roundMag (a : ℚ) (h : -126 < binade a) : pow2 (binade a) ≤ roundMag a := by
  unfold roundMag ulp
  have hu := pow2_pos (binade a - 23)
  have h1 : ((2 ^ 23 : Int) : ℚ) ≤ a / pow2 (binade a - 23) := by
    rw [le_div_iff₀ hu, ← pow2_binade_eq]
    exact binade_le a h
  have h2 := le_roundHalfEven _ _ h1
  rw [pow2_binade_eq (binade a)]
  exact mul_le_mul_of_nonneg_right (by exact_mod_cast h2) hu.le

theorem roundMag_le (a : ℚ) (h : binade a < 127) : roundMag a ≤ pow2 (binade a + 1) := by
  unfold roundMag ulp
  have hu := pow2_pos (binade a - 23)
  have h1 : a / pow2 (binade a - 23) ≤ ((2 ^ 24 : Int) : ℚ) := by
    rw [div_le_iff₀ hu, ← pow2_binade_succ_eq]
    exact (binade_lt a _ (by omega) (by omega)).le
  have h2 := roundHalfEven_le _ _ h1
  rw [pow2_binade_succ_eq (binade a)]
  exact mul_le_mul_of_nonneg_right (by exact_mod_cast h2) hu.le

/-- The rounding of magnitudes is monotone. -/
theorem roundMag_mono (a b : ℚ) (h : a ≤ b) : roundMag a ≤ roundMag b := by
  rcases lt_or_eq_of_le (binade_mono a b h) with hlt | heq
  · have hra := binade_range a
    have hrb := binade_range b
    calc roundMag a ≤ pow2 (binade a + 1) := roundMag_le a (by omega)
      _ ≤ pow2 (binade b) := pow2_le _ _ (by omega)
      _ ≤ roundMag b := le_roundMag b (by omega)
  · unfold roundMag ulp
    rw [heq]
    have hu := pow2_pos (binade b - 23)
    have h1 : a / pow2 (binade b - 23) ≤ b / pow2 (binade b - 23) :=
      div_le_div_of_nonneg_right h hu.le
    have h2 := roundHalfEven_mono _ _ h1
    exact mul_le_mul_of_nonneg_right (by exact_mod_cast h2) hu.le

/-- Every rounded magnitude is a multiple of `2^-149`. -/
theorem roundMag_grid (a : ℚ) : ∃ k : Int, roundMag a = (k : ℚ) * pow2 (-149) := by
  have hr := binade_range a
  obtain ⟨n, hn⟩ := Int.eq_ofNat_of_zero_le (show 0 ≤ binade a + 126 by omega)
  refine ⟨roundHalfEven (a / ulp a) * 2 ^ n, ?_⟩
  unfold roundMag
  have hu : ulp a = ((2 ^ n : Int) : ℚ) * pow2 (-149) := by
    unfold ulp
    have h : binade a - 23 = (n : Int) + (-149) := by omega
    rw [h, pow2_add, pow2_natCast]
  rw [hu]
  push_cast
  ring

theorem roundMag_zero : roundMag 0 = 0 := by
  unfold roundMag
  rw [zero_div, show roundHalfEven 0 = 0 from roundHalfEven_intCast 0]
  simp

theorem roundQ_of_nonneg (x : ℚ) (h : 0 ≤ x) : roundQ x = roundMag x := by
  unfold roundQ
  rw [if_neg (not_lt.mpr h)]

theorem roundQ_neg (x : ℚ) : roundQ (-x) = -roundQ x := by
  unfold roundQ
  rcases lt_trichotomy x 0 with h | h | h
  · rw [if_pos h, if_neg (by linarith), neg_neg]
  · subst h
    simp [roundMag_zero]
  · rw [if_pos (by linarith), if_neg (by linarith), neg_neg]

theorem roundQ_nonneg (x : ℚ) (h : 0 ≤ x) : 0 ≤ roundQ x := by
  rw [roundQ_of_nonneg x h]
  exact roundMag_nonneg x h

/-- The rounding is monotone on the values that are not negative. -/
theorem roundQ_mono (x y : ℚ) (h0 : 0 ≤ x) (h : x ≤ y) : roundQ x ≤ roundQ y := by
  rw [roundQ_of_nonneg x h0, roundQ_of_nonneg y (le_trans h0 h)]
  exact roundMag_mono x y h

theorem roundQ_grid (x : ℚ) : ∃ k : Int, roundQ x = (k : ℚ) * pow2 (-149) := by
  unfold roundQ
  by_cases h : x < 0
  · obtain ⟨k, hk⟩ := roundMag_grid (-x)
    refine ⟨-k, ?_⟩
    rw [if_pos h, hk]
    push_cast
    ring
  · rw [if_neg h]
    exact roundMag_grid x

theorem roundQ_zero : roundQ 0 = 0 := by
  rw [roundQ_of_nonneg 0 (le_refl 0), roundMag_zero]

theorem roundQ_one : roundQ 1 = 1 := by decide!

theorem roundQ_fifty : roundQ 50 = 50 := by decide!

theorem roundQ_least : roundQ (pow2 (-149)) = pow2 (-149) := by decide!

theorem round32_fin (x r : ℚ) (h : round32 x = FX.fin r) :
    roundQ x = r ∧ |r| < pow2 128 := by
  unfold round32 at h
  by_cases hov : pow2 128 ≤ |roundQ x|
  · rw [if_pos hov] at h
    exact FX.noConfusion h
  · rw [if_neg hov] at h
    have hr : roundQ x = r := FX.fin.inj h
    rw [← hr]
    exact ⟨rfl, not_le.mp hov⟩

theorem round32_of_lt (x : ℚ) (h : |roundQ x| < pow2 128) : round32 x = FX.fin (roundQ x) := by
  unfold round32
  rw [if_neg (not_le.mpr h)]

theorem isFloat_iff (q : ℚ) : isFloat q ↔ roundQ q = q ∧ |q| < pow2 128 := by
  constructor
  · intro h
    exact round32_fin q q h
  · rintro ⟨h1, h2⟩
    unfold isFloat
    rw [round32_of_lt q (by rw [h1]; exact h2), h1]

/-- Every value of binary32 is a multiple of `2^-149`. -/
theorem isFloat_grid (q : ℚ) (h : isFloat q) : ∃ k : Int, q = (k : ℚ) * pow2 (-149) := by
  obtain ⟨k, hk⟩ := roundQ_grid q
  exact ⟨k, by rw [← hk, ((isFloat_iff q).mp h).1]⟩

theorem isFloat_neg (q : ℚ) (h : isFloat q) : isFloat (-q) := by
  rw [isFloat_iff] at h ⊢
  exact ⟨by rw [roundQ_neg, h.1], by rw [abs_neg]; exact h.2⟩

theorem isFloat_zero : isFloat 0 := by decide!

/-- A value between 0 and a value whose rounding is finite has a finite
rounding, between 0 and that rounding. -/
theorem round32_between (x y d : ℚ) (h0 : 0 ≤ x) (h : x ≤ y) (hy : round32 y = FX.fin d) :
    round32 x = FX.fin (roundQ x) ∧ 0 ≤ roundQ x ∧ roundQ x ≤ d := by
  obtain ⟨hd, hlt⟩ := round32_fin y d hy
  have h1 : 0 ≤ roundQ x := roundQ_nonneg x h0
  have h2 : roundQ x ≤ d := by
    rw [← hd]
    exact roundQ_mono x y h0 h
  refine ⟨round32_of_lt x ?_, h1, h2⟩
  rw [abs_of_nonneg h1]
  exact lt_of_le_of_lt h2 (lt_of_le_of_lt (le_abs_self d) hlt)

/-- The difference of two distinct values of binary32 does not round to 0. -/
theorem roundQ_sub_ne_zero (a b : ℚ) (ha : isFloat a) (hb : isFloat b) (h : a ≠ b) :
    roundQ (a - b) ≠ 0 := by
  obtain ⟨ka, hka⟩ := isFloat_grid a ha
  obtain ⟨kb, hkb⟩ := isFloat_grid b hb
  have hp := pow2_pos (-149)
  have hk : ka ≠ kb := by
    intro heq
    apply h
    rw [hka, hkb, heq]
  have key : ∀ x y : ℚ, ∀ kx ky : Int, x = (kx : ℚ) * pow2 (-149) → y = (ky : ℚ) * pow2 (-149) →
      ky < kx → 0 < roundQ (x - y) := by
    intro x y kx ky hx hy hlt
    have h1 : pow2 (-149) ≤ x - y := by
      have h2 : (1 : ℚ) ≤ (kx : ℚ) - (ky : ℚ) := by
        have h3 : ky + 1 ≤ kx := hlt
        have h4 : ((ky + 1 : Int) : ℚ) ≤ (kx : ℚ) := by exact_mod_cast h3
        push_cast at h4
        linarith
      rw [hx, hy, ← sub_mul]
      calc pow2 (-149) = 1 * pow2 (-149) := (one_mul _).symm
        _ ≤ ((kx : ℚ) - (ky : ℚ)) * pow2 (-149) := mul_le_mul_of_nonneg_right h2 hp.le
    have h5 := roundQ_mono _ _ hp.le h1
    rw [roundQ_least] at h5
    linarith
  rcases lt_or_gt_of_ne hk with hlt | hgt
  · have h1 := key b a kb ka hkb hka hlt
    have h2 : roundQ (a - b) = -roundQ (b - a) := by
      rw [← roundQ_neg, neg_sub]
    rw [h2]
    linarith
  · exact (key a b ka kb hka hkb hgt).ne'

theorem round32_sub_ne_zero (a b : ℚ) (ha : isFloat a) (hb : isFloat b) (h : a ≠ b) :
    round32 (a - b) ≠ FX.fin 0 := by
  intro h0
  exact roundQ_sub_ne_zero a b ha hb h (round32_fin _ _ h0).1

/-! ## The quotients that round to 1 -/

theorem binade_eq (a : ℚ) (e : Int) (h1 : pow2 e ≤ a) (h2 : a < pow2 (e + 1))
    (he : -126 ≤ e) (he2 : e ≤ 127) : binade a = e := by
  have hr := binade_range a
  rcases lt_trichotomy (binade a) e with hlt | heq | hgt
  · have := binade_lt a e hlt (by omega)
    linarith
  · exact heq
  · have h3 : pow2 (binade a) ≤ a := binade_le a (by omega)
    have h4 : pow2 (e + 1) ≤ pow2 (binade a) := pow2_le _ _ (by omega)
    linarith

theorem roundHalfEven_of_gt (n : Int) (t : ℚ) (h : (n : ℚ) + 1 / 2 < t) :
    n + 1 ≤ roundHalfEven t := by
  have hfl : n ≤ ⌊t⌋ := Int.le_floor.mpr (by linarith)
  have hlt : t < (⌊t⌋ : ℚ) + 1 := Int.lt_floor_add_one t
  unfold roundHalfEven
  split_ifs with h1 h2 h3
  · have h4 : (n : ℚ) < (⌊t⌋ : ℚ) := by linarith
    have h5 : n < ⌊t⌋ := by exact_mod_cast h4
    omega
  · omega
  · have h4 : (n : ℚ) < (⌊t⌋ : ℚ) := by linarith
    have h5 : n < ⌊t⌋ := by exact_mod_cast h4
    omega
  · omega

theorem roundHalfEven_of_lt (n : Int) (t : ℚ) (h : t < (n : ℚ) - 1 / 2) :
    roundHalfEven t ≤ n - 1 := by
  have hfl : (⌊t⌋ : ℚ) ≤ t := Int.floor_le t
  have h0 : (⌊t⌋ : ℚ) < (n : ℚ) := by linarith
  have h0i : ⌊t⌋ < n := by exact_mod_cast h0
  unfold roundHalfEven
  split_ifs with h1 h2 h3
  · omega
  · have h4 : (⌊t⌋ : ℚ) + 1 < (n : ℚ) := by linarith
    have h5 : ⌊t⌋ + 1 < n := by exact_mod_cast h4
    omega
  · omega
  · have h4 : (⌊t⌋ : ℚ) + 1 < (n : ℚ) := by linarith
    have h5 : ⌊t⌋ + 1 < n := by exact_mod_cast h4
    omega

theorem roundMag_two : roundMag 2 = 2 := by decide!

theorem roundMag_half : roundMag (1 / 2) = 1 / 2 := by decide!

theorem pow2_values : pow2 0 = 1 ∧ pow2 1 = 2 ∧ pow2 (-1) = 1 / 2 ∧
    pow2 (-23) = 1 / 8388608 ∧ pow2 (-24) = 1 / 16777216 := by decide!

/-- A positive value that rounds to 1 lies within half a unit in the last
place of 1. -/
theorem roundMag_eq_one_bounds (q : ℚ) (h : roundMag q = 1) :
    1 - 1 / 33554432 ≤ q ∧ q ≤ 1 + 1 / 16777216 := by
  obtain ⟨p0, p1, pm1, pm23, pm24⟩ := pow2_values
  constructor
  · by_contra hlt
    have hlt1 : q < 1 - 1 / 33554432 := not_le.mp hlt
    by_cases hhalf : 1 / 2 ≤ q
    · have hb : binade q = -1 := binade_eq q (-1) (by rw [pm1]; exact hhalf)
        (by rw [show (-1 : Int) + 1 = 0 from rfl, p0]; linarith) (by decide) (by decide)
      have hu : ulp q = 1 / 16777216 := by
        unfold ulp
        rw [hb, show (-1 : Int) - 23 = -24 from rfl, pm24]
      unfold roundMag at h
      rw [hu] at h
      have h2 : roundHalfEven (q / (1 / 16777216)) ≤ 16777216 - 1 := by
        apply roundHalfEven_of_lt
        rw [div_div_eq_mul_div, div_one]
        push_cast
        linarith
      have h3 : (roundHalfEven (q / (1 / 16777216)) : ℚ) ≤ 16777215 := by exact_mod_cast h2
      linarith
    · have h2 := roundMag_mono q (1 / 2) (not_le.mp hhalf).le
      rw [roundMag_half, h] at h2
      linarith
  · by_contra hgt
    have hgt1 : 1 + 1 / 16777216 < q := not_le.mp hgt
    by_cases htwo : q < 2
    · have hb : binade q = 0 := binade_eq q 0 (by rw [p0]; linarith)
        (by rw [show (0 : Int) + 1 = 1 from rfl, p1]; exact htwo) (by decide) (by decide)
      have hu : ulp q = 1 / 8388608 := by
        unfold ulp
        rw [hb, show (0 : Int) - 23 = -23 from rfl, pm23]
      unfold roundMag at h
      rw [hu] at h
      have h2 : 8388608 + 1 ≤ roundHalfEven (q / (1 / 8388608)) := by
        apply roundHalfEven_of_gt
        rw [div_div_eq_mul_div, div_one]
        push_cast
        linarith
      have h3 : (8388609 : ℚ) ≤ (roundHalfEven (q / (1 / 8388608)) : ℚ) := by exact_mod_cast h2
      linarith
    · have h2 := roundMag_mono 2 q (not_lt.mp htwo)
      rw [roundMag_two, h] at h2
      linarith

/-- A positive value of binary32 is a multiple of its unit in the last place
and lies below 2^24 units. -/
theorem float_units (a : ℚ) (ha : isFloat a) (h0 : 0 < a) :
    (∃ k : Int, a = (k : ℚ) * ulp a) ∧ a < ((2 ^ 24 : Int) : ℚ) * ulp a := by
  obtain ⟨hr, hlt⟩ := (isFloat_iff a).mp ha
  rw [roundQ_of_nonneg a h0.le] at hr
  refine ⟨⟨roundHalfEven (a / ulp a), ?_⟩, ?_⟩
  · exact hr.symm
  · unfold ulp
    rw [← pow2_binade_succ_eq]
    have hrange := binade_range a
    by_cases h127 : binade a < 127
    · exact binade_lt a _ (by omega) (by omega)
    · have he : binade a = 127 := by omega
      rw [he, show (127 : Int) + 1 = 128 from rfl]
      rwa [abs_of_pos h0] at hlt

theorem ulp_of_le (a b : ℚ) (h : binade a ≤ binade b) :
    ∃ n : Nat, ulp b = ((2 ^ n : Int) : ℚ) * ulp a := by
  refine ⟨(binade b - binade a).toNat, ?_⟩
  unfold ulp
  rw [← pow2_natCast, ← pow2_add]
  congr 1
  rw [Int.toNat_of_nonneg (by omega)]
  ring

/-- Two positive values of binary32 whose quotient rounds to 1 are equal. -/
theorem float_div_eq_one (a d : ℚ) (ha : isFloat a) (hd : isFloat d) (ha0 : 0 < a)
    (hd0 : 0 < d) (h : roundMag (a / d) = 1) : a = d := by
  obtain ⟨hq1, hq2⟩ := roundMag_eq_one_bounds _ h
  obtain ⟨⟨ka, hka⟩, hatop⟩ := float_units a ha ha0
  obtain ⟨⟨kd, hkd⟩, hdtop⟩ := float_units d hd hd0
  have hua := ulp_pos a
  have hud := ulp_pos d
  have h1 : a ≤ d * (1 + 1 / 16777216) := (div_le_iff₀ hd0).mp hq2 |>.trans_eq (mul_comm _ _)
  have h2 : d * (1 - 1 / 33554432) ≤ a := by
    rw [mul_comm]
    exact (le_div_iff₀ hd0).mp hq1
  rcases lt_trichotomy a d with hlt | heq | hgt
  · exfalso
    have hbin : binade a ≤ binade d := binade_mono a d hlt.le
    have hdtop1 : d < 16777216 * ulp d := by
      have h3 := hdtop
      norm_num at h3
      exact h3
    have hclose : d - a < ulp d / 2 := by linarith
    rcases lt_or_eq_of_le hbin with hb | hb
    · have hrd := binade_range d
      have hra := binade_range a
      have hdl : pow2 (binade d) ≤ d := binade_le d (by omega)
      have hdl1 : pow2 (binade d) = ((2 ^ 23 : Int) : ℚ) * ulp d := pow2_binade_eq _
      have hprev : pow2 (binade d - 1) ≤ a := by
        have e1 : pow2 (binade d) = pow2 (binade d - 1) * pow2 1 := by
          rw [← pow2_add]
          congr 1
          ring
        rw [pow2_values.2.1] at e1
        have hpos := pow2_pos (binade d - 1)
        push_cast at hdl1
        nlinarith
      have hbe : binade a = binade d - 1 := by
        by_contra hne
        have := binade_lt a (binade d - 1) (by omega) (by omega)
        linarith
      have hu2 : ulp d = 2 * ulp a := by
        unfold ulp
        rw [hbe, show binade d - 23 = 1 + (binade d - 1 - 23) by ring, pow2_add,
          pow2_values.2.1]
      have hal : a < pow2 (binade a + 1) := binade_lt a _ (by omega) (by omega)
      rw [pow2_binade_succ_eq] at hal
      have hal1 : (ka : ℚ) * ulp a < ((2 ^ 24 : Int) : ℚ) * ulp a := by
        rw [← hka]
        exact hal
      have hk1 : (ka : ℚ) < ((2 ^ 24 : Int) : ℚ) := lt_of_mul_lt_mul_right hal1 hua.le
      have hk2 : ka < 2 ^ 24 := by exact_mod_cast hk1
      have hk3 : ka + 1 ≤ 2 ^ 24 := hk2
      have hk4 : ((ka + 1 : Int) : ℚ) ≤ ((2 ^ 24 : Int) : ℚ) := by exact_mod_cast hk3
      push_cast at hk4 hdl1
      have hk5 : ((ka : ℚ) + 1) * ulp a ≤ 16777216 * ulp a :=
        mul_le_mul_of_nonneg_right hk4 hua.le
      nlinarith
    · have hu : ulp d = ulp a := by
        unfold ulp
        rw [hb]
      rw [hu] at hkd hclose
      have hk : ka < kd := by
        have : (ka : ℚ) * ulp a < (kd : ℚ) * ulp a := by rw [← hka, ← hkd]; exact hlt
        have h3 := lt_of_mul_lt_mul_right this hua.le
        exact_mod_cast h3
      have hk3 : ka + 1 ≤ kd := hk
      have hk4 : ((ka + 1 : Int) : ℚ) ≤ (kd : ℚ) := by exact_mod_cast hk3
      push_cast at hk4
      have hk5 : ((ka : ℚ) + 1) * ulp a ≤ (kd : ℚ) * ulp a :=
        mul_le_mul_of_nonneg_right hk4 hua.le
      nlinarith
  · exact heq
  · exfalso
    have hbin : binade d ≤ binade a := binade_mono d a hgt.le
    obtain ⟨n, hn⟩ := ulp_of_le d a hbin
    have hk6 : a = ((ka * 2 ^ n : Int) : ℚ) * ulp d := by
      rw [Int.cast_mul, mul_assoc, ← hn]
      exact hka
    have hk : kd < ka * 2 ^ n := by
      have : (kd : ℚ) * ulp d < ((ka * 2 ^ n : Int) : ℚ) * ulp d := by
        rw [← hkd, ← hk6]
        exact hgt
      have h3 := lt_of_mul_lt_mul_right this hud.le
      exact_mod_cast h3
    have hk3 : kd + 1 ≤ ka * 2 ^ n := hk
    have hk4 : ((kd + 1 : Int) : ℚ) ≤ ((ka * 2 ^ n : Int) : ℚ) := by exact_mod_cast hk3
    have hk5 : ((kd + 1 : Int) : ℚ) * ulp d ≤ ((ka * 2 ^ n : Int) : ℚ) * ulp d :=
      mul_le_mul_of_nonneg_right hk4 hud.le
    rw [← hk6, Int.cast_add, add_mul, ← hkd, Int.cast_one, one_mul] at hk5
    have hdtop1 : d < 16777216 * ulp d := by
      have h3 := hdtop
      norm_num at h3
      exact h3
    linarith

/-- The quotient of two values of binary32 rounds to 1 exactly when they are
equal. -/
theorem roundQ_div_eq_one (a d : ℚ) (ha : isFloat a) (hd : isFloat d) (hd0 : d ≠ 0) :
    roundQ (a / d) = 1 ↔ a = d := by
  constructor
  · intro h
    have hpos : 0 < a / d := by
      by_contra hle
      have hle1 : a / d ≤ 0 := not_lt.mp hle
      have : roundQ (a / d) ≤ 0 := by
        have h1 := roundQ_nonneg (-(a / d)) (by linarith)
        rw [roundQ_neg] at h1
        linarith
      linarith
    rcases div_pos_iff.mp hpos with ⟨h1, h2⟩ | ⟨h1, h2⟩
    · rw [roundQ_of_nonneg _ hpos.le] at h
      exact float_div_eq_one a d ha hd h1 h2 h
    · rw [roundQ_of_nonneg _ hpos.le, ← neg_div_neg_eq] at h
      have := float_div_eq_one (-a) (-d) (isFloat_neg a ha) (isFloat_neg d hd)
        (by linarith) (by linarith) h
      linarith
  · intro h
    rw [h, div_self hd0, roundQ_one]

/-! ## The results of the rounding are values of binary32 -/

theorem pow2_lt_succ (e : Int) : pow2 e < pow2 (e + 1) := by
  rw [pow2_add, pow2_values.2.1]
  have := pow2_pos e
  linarith

theorem roundMag_of_units (r : ℚ) (k : Int) (e : Int) (hb : binade r = e)
    (hr : r = (k : ℚ) * pow2 (e - 23)) : roundMag r = r := by
  have hp := pow2_pos (e - 23)
  unfold roundMag ulp
  rw [hb]
  nth_rewrite 1 [hr]
  rw [mul_div_assoc, div_self hp.ne', mul_one, roundHalfEven_intCast, ← hr]

/-- Rounding a rounded magnitude changes nothing. -/
theorem roundMag_idem (a : ℚ) : roundMag (roundMag a) = roundMag a := by
  have hrange := binade_range a
  have hdef : roundMag a = (roundHalfEven (a / ulp a) : ℚ) * pow2 (binade a - 23) := rfl
  by_cases htop : binade a < 127 ∧ pow2 (binade a + 1) ≤ roundMag a
  · obtain ⟨h127, hge⟩ := htop
    have heq : roundMag a = pow2 (binade a + 1) := le_antisymm (roundMag_le a h127) hge
    have hb : binade (roundMag a) = binade a + 1 :=
      binade_eq (roundMag a) (binade a + 1) hge (by rw [heq]; exact pow2_lt_succ _)
        (by omega) (by omega)
    apply roundMag_of_units _ (2 ^ 23) _ hb
    rw [heq]
    exact pow2_binade_eq _
  · have hb : binade (roundMag a) = binade a := by
      have hr2 := binade_range (roundMag a)
      by_cases hlow : binade a = -126
      · by_contra hne
        have h1 : pow2 (binade (roundMag a)) ≤ roundMag a := binade_le _ (by omega)
        have h2 : pow2 (-125) ≤ pow2 (binade (roundMag a)) := pow2_le _ _ (by omega)
        apply htop
        refine ⟨by omega, ?_⟩
        rw [hlow]
        exact le_trans h2 h1
      · have hle : pow2 (binade a) ≤ roundMag a := le_roundMag a (by omega)
        by_cases h127 : binade a < 127
        · have hlt : roundMag a < pow2 (binade a + 1) := by
            by_contra hge
            exact htop ⟨h127, not_lt.mp hge⟩
          exact binade_eq (roundMag a) (binade a) hle hlt (by omega) (by omega)
        · have he : binade a = 127 := by omega
          by_contra hne
          have := binade_lt (roundMag a) 127 (by omega) (by decide)
          rw [he] at hle
          linarith
    exact roundMag_of_units _ _ _ hb hdef

theorem roundQ_idem (x : ℚ) : roundQ (roundQ x) = roundQ x := by
  by_cases h : x < 0
  · have h1 : roundQ x = -roundMag (-x) := by
      unfold roundQ
      rw [if_pos h]
    have h2 : 0 ≤ roundMag (-x) := roundMag_nonneg _ (by linarith)
    rw [h1, roundQ_neg, roundQ_of_nonneg _ h2, roundMag_idem]
  · have h0 : 0 ≤ x := not_lt.mp h
    rw [roundQ_of_nonneg x h0, roundQ_of_nonneg _ (roundMag_nonneg x h0), roundMag_idem]

/-- A finite result of the rounding is a value of binary32. -/
theorem isFloat_of_round32 (x r : ℚ) (h : round32 x = FX.fin r) : isFloat r := by
  obtain ⟨h1, h2⟩ := round32_fin x r h
  rw [isFloat_iff]
  refine ⟨?_, h2⟩
  rw [← h1]
  exact roundQ_idem x

theorem round32_ne_nan (x : ℚ) : round32 x ≠ FX.nan := by
  unfold round32
  split_ifs <;> simp

/-! ## Lemmas on the loop of `draw` over a history -/

theorem drawQueue_cons_nan (show_min show_max : F) (rel : Bool) (y h : Int) (c : SColor)
    (rest : List F) (x : Int) (last : FX) (ex : Bool) :
    drawQueue show_min show_max rel y h c (F.nan :: rest) x last ex =
      drawQueue show_min show_max rel y h c rest (x + 1) last false := by
  rw [drawQueue]
  simp [F.eq]

theorem drawQueue_cons_skipped (show_min show_max value : F) (rel : Bool) (y h : Int)
    (c : SColor) (rest : List F) (x : Int) (last : FX) (ex : Bool)
    (hs : zeroSkipped show_min show_max value = true) :
    drawQueue show_min show_max rel y h c (value :: rest) x last ex =
      drawQueue show_min show_max rel y h c rest (x + 1) last false := by
  unfold zeroSkipped at hs
  rw [drawQueue]
  by_cases hv : F.eq value value = true
  · cases hsv : scaledValue value show_min show_max with
    | none => rw [hsv] at hs; exact absurd hs (by simp)
    | some sv =>
      rw [hsv] at hs
      have hs1 : (FX.eq sv (FX.fin 1) && F.eq value (F.fin 0)) = true := hs
      obtain ⟨h1, h2⟩ := (Bool.and_eq_true _ _).mp hs1
      simp [hv, h1, h2]
  · simp [hv]

theorem drawQueue_cons_not_drawn (show_min show_max value : F) (rel : Bool) (y h : Int)
    (c : SColor) (rest : List F) (x : Int) (last : FX) (ex : Bool)
    (hd : isDrawn show_min show_max value = false) :
    drawQueue show_min show_max rel y h c (value :: rest) x last ex =
      drawQueue show_min show_max rel y h c rest (x + 1) last false := by
  by_cases hv : F.eq value value = true
  · apply drawQueue_cons_skipped
    simpa [isDrawn, hv] using hd
  · rw [drawQueue]
    simp [hv]

theorem isDrawn_parts (show_min show_max value : F)
    (hd : isDrawn show_min show_max value = true) :
    F.eq value value = true ∧ zeroSkipped show_min show_max value = false := by
  simpa [isDrawn] using hd

theorem drawQueue_cons_bar (show_min show_max value : F) (y : Int) (c : SColor)
    (rest : List F) (x : Int) (last : FX) (ex : Bool) (i : Int)
    (hd : isDrawn show_min show_max value = true)
    (hp : pixelOffset show_min show_max value = some i) :
    drawQueue show_min show_max false y 50 c (value :: rest) x last ex =
      (drawQueue show_min show_max false y 50 c rest (x + 1) last ex).map
        (fun lines => ⟨x, y, x, y - i, c⟩ :: lines) := by
  obtain ⟨hv, hz⟩ := isDrawn_parts _ _ _ hd
  unfold zeroSkipped at hz
  unfold pixelOffset at hp
  cases hsv : scaledValue value show_min show_max with
  | none => rw [hsv] at hp; exact Option.noConfusion hp
  | some sv =>
    rw [hsv] at hp hz
    have hz1 : (FX.eq sv (FX.fin 1) && F.eq value (F.fin 0)) = false := hz
    have hp1 : FX.toS32 (FX.mul sv (FX.ofInt 50)) = some i := hp
    rw [drawQueue, hsv]
    simp only [hv, hz1, Bool.not_true, Bool.false_eq_true, if_false, hp1]
    cases drawQueue show_min show_max false y 50 c rest (x + 1) last ex <;> rfl

theorem drawQueue_cons_first (show_min show_max value : F) (sv : FX) (y : Int) (c : SColor)
    (rest : List F) (x : Int) (last : FX)
    (hd : isDrawn show_min show_max value = true)
    (hsv : scaledValue value show_min show_max = some sv) :
    drawQueue show_min show_max true y 50 c (value :: rest) x last false =
      drawQueue show_min show_max true y 50 c rest (x + 1) sv true := by
  obtain ⟨hv, hz⟩ := isDrawn_parts _ _ _ hd
  unfold zeroSkipped at hz
  rw [hsv] at hz
  have hz1 : (FX.eq sv (FX.fin 1) && F.eq value (F.fin 0)) = false := hz
  rw [drawQueue, hsv]
  simp only [hv, hz1, Bool.not_true, Bool.false_eq_true, if_false, if_true]

theorem drawQueue_cons_segment (show_min show_max value : F) (sv : FX) (y : Int)
    (c : SColor) (rest : List F) (x : Int) (last : FX) (i1 i2 : Int)
    (hd : isDrawn show_min show_max value = true)
    (hsv : scaledValue value show_min show_max = some sv)
    (h1 : FX.toS32 (FX.mul last (FX.ofInt 50)) = some i1)
    (h2 : pixelOffset show_min show_max value = some i2) :
    drawQueue show_min show_max true y 50 c (value :: rest) x last true =
      (drawQueue show_min show_max true y 50 c rest (x + 1) sv true).map
        (fun lines => ⟨x - 1, y - i1, x, y - i2, c⟩ :: lines) := by
  obtain ⟨hv, hz⟩ := isDrawn_parts _ _ _ hd
  unfold zeroSkipped at hz
  unfold pixelOffset at h2
  rw [hsv] at hz h2
  have hz1 : (FX.eq sv (FX.fin 1) && F.eq value (F.fin 0)) = false := hz
  have h21 : FX.toS32 (FX.mul sv (FX.ofInt 50)) = some i2 := h2
  rw [drawQueue, hsv]
  simp only [hv, hz1, Bool.not_true, Bool.false_eq_true, if_false, if_true, h1, h21]
  cases drawQueue show_min show_max true y 50 c rest (x + 1) sv true <;> rfl

theorem cursor_succ (x_left : Int) (n : Nat) :
    x_left + (n : Int) + 1 = x_left + ((n + 1 : Nat) : Int) := by
  push_cast
  ring

/-- In the absolute mode the loop over the queue draws the bars of the
specification, when the offset of every drawn entry is defined. -/
theorem drawQueue_absolute (show_min show_max : F) (x_left y : Int) (c : SColor)
    (q : List F)
    (hconv : ∀ v ∈ q, isDrawn show_min show_max v = true →
      (pixelOffset show_min show_max v).isSome = true)
    (n : Nat) (last : FX) (ex : Bool) :
    drawQueue show_min show_max false y 50 c q (x_left + n) last ex =
      some ((q.enumFrom n).filterMap (specBar x_left y c show_min show_max)) := by
  induction q generalizing n last ex with
  | nil => rfl
  | cons v rest ih =>
    have hrest : ∀ w ∈ rest, isDrawn show_min show_max w = true →
        (pixelOffset show_min show_max w).isSome = true :=
      fun w hw => hconv w (List.mem_cons_of_mem _ hw)
    by_cases hd : isDrawn show_min show_max v = true
    · obtain ⟨i, hi⟩ := Option.isSome_iff_exists.mp (hconv v (List.mem_cons_self _ _) hd)
      rw [drawQueue_cons_bar _ _ _ _ _ _ _ _ _ i hd hi, cursor_succ, ih hrest]
      simp [List.enumFrom_cons, specBar, hd, hi]
    · have hd1 : isDrawn show_min show_max v = false := by simpa using hd
      rw [drawQueue_cons_not_drawn _ _ _ _ _ _ _ _ _ _ _ hd1, cursor_succ, ih hrest]
      simp [List.enumFrom_cons, specBar, hd1]

theorem pixelOffset_some (show_min show_max value : F) (i : Int)
    (h : pixelOffset show_min show_max value = some i) :
    ∃ sv, scaledValue value show_min show_max = some sv ∧
      FX.toS32 (FX.mul sv (FX.ofInt 50)) = some i := by
  unfold pixelOffset at h
  cases hsv : scaledValue value show_min show_max with
  | none => rw [hsv] at h; exact Option.noConfusion h
  | some sv => rw [hsv] at h; exact ⟨sv, rfl, h⟩

/-- In the relative mode the loop over the queue draws the segments of the
specification, when the offset of every drawn entry is defined; `prev` is the
entry of the slot before the queue, whose scaled value is `last` when it is
drawn. -/
theorem drawQueue_relative (show_min show_max : F) (x_left y : Int) (c : SColor)
    (q : List F) (prev : F) (last : FX) (n : Nat)
    (hlast : isDrawn show_min show_max prev = true →
      FX.toS32 (FX.mul last (FX.ofInt 50)) = pixelOffset show_min show_max prev)
    (hprev : isDrawn show_min show_max prev = true →
      (pixelOffset show_min show_max prev).isSome = true)
    (hconv : ∀ v ∈ q, isDrawn show_min show_max v = true →
      (pixelOffset show_min show_max v).isSome = true) :
    drawQueue show_min show_max true y 50 c q (x_left + n) last
        (isDrawn show_min show_max prev) =
      some ((((prev :: q).zip q).enumFrom n).filterMap
        (specSegment x_left y c show_min show_max)) := by
  induction q generalizing prev last n with
  | nil => rfl
  | cons v rest ih =>
    have hrest : ∀ w ∈ rest, isDrawn show_min show_max w = true →
        (pixelOffset show_min show_max w).isSome = true :=
      fun w hw => hconv w (List.mem_cons_of_mem _ hw)
    have hv := hconv v (List.mem_cons_self _ _)
    rw [List.zip_cons_cons, List.enumFrom_cons, List.filterMap_cons]
    by_cases hd : isDrawn show_min show_max v = true
    · obtain ⟨i2, hi2⟩ := Option.isSome_iff_exists.mp (hv hd)
      obtain ⟨sv, hsv, hsv2⟩ := pixelOffset_some _ _ _ _ hi2
      have ih1 := ih v sv (n + 1) (fun _ => by rw [hsv2, hi2]) hv hrest
      rw [hd] at ih1
      by_cases hdp : isDrawn show_min show_max prev = true
      · obtain ⟨i1, hi1⟩ := Option.isSome_iff_exists.mp (hprev hdp)
        have h1 : FX.toS32 (FX.mul last (FX.ofInt 50)) = some i1 := by rw [hlast hdp, hi1]
        rw [hdp, drawQueue_cons_segment _ _ _ sv _ _ _ _ _ i1 i2 hd hsv h1 hi2, cursor_succ, ih1]
        simp [specSegment, hd, hdp, hi1, hi2]
      · have hdp1 : isDrawn show_min show_max prev = false := by simpa using hdp
        rw [hdp1, drawQueue_cons_first _ _ _ sv _ _ _ _ _ hd hsv, cursor_succ, ih1]
        simp [specSegment, hdp1]
    · have hd1 : isDrawn show_min show_max v = false := by simpa using hd
      have ih1 := ih v last (n + 1) (fun h => absurd h hd) (fun h => absurd h hd) hrest
      rw [hd1] at ih1
      rw [drawQueue_cons_not_drawn _ _ _ _ _ _ _ _ _ _ _ hd1, cursor_succ, ih1]
      simp [specSegment, hd1]

theorem isDrawn_nan (show_min show_max : F) : isDrawn show_min show_max F.nan = false := by
  simp [isDrawn, F.eq]

/-- The loop over the queue in the relative mode, from the state at the start
of the graph. -/
theorem drawQueue_relative_start (show_min show_max : F) (x_left y : Int) (c : SColor)
    (q : List F)
    (hconv : ∀ v ∈ q, isDrawn show_min show_max v = true →
      (pixelOffset show_min show_max v).isSome = true) :
    drawQueue show_min show_max true y 50 c q x_left (FX.fin 0) false =
      some (specSegments x_left y c show_min show_max q) := by
  have h := drawQueue_relative show_min show_max x_left y c q F.nan (FX.fin 0) 0
    (fun hd => by rw [isDrawn_nan] at hd; exact absurd hd (by simp))
    (fun hd => by rw [isDrawn_nan] at hd; exact absurd hd (by simp)) hconv
  rw [isDrawn_nan] at h
  simp only [Nat.cast_zero, add_zero] at h
  rw [h]
  unfold specSegments
  cases q with
  | nil => rfl
  | cons v rest =>
    rw [List.zip_cons_cons, List.enumFrom_cons, List.filterMap_cons]
    simp [specSegment, isDrawn_nan]

theorem drawQueue_absolute_start (show_min show_max : F) (x_left y : Int) (c : SColor)
    (q : List F)
    (hconv : ∀ v ∈ q, isDrawn show_min show_max v = true →
      (pixelOffset show_min show_max v).isSome = true) :
    drawQueue show_min show_max false y 50 c q x_left (FX.fin 0) false =
      some (specBars x_left y c show_min show_max q) := by
  have h := drawQueue_absolute show_min show_max x_left y c q hconv 0 (FX.fin 0) false
  simp only [Nat.cast_zero, add_zero] at h
  rw [h]
  rfl

theorem mem_present_of_mem (p : ℚ) (q : List F) (h : F.fin p ∈ q) : p ∈ present q := by
  induction q with
  | nil => simp at h
  | cons v rest ih =>
    rcases List.mem_cons.mp h with h1 | h1
    · subst h1
      simp [present]
    · exact mem_present_cons p v rest (ih h1)

theorem isDrawn_fin (show_min show_max v : F) (hd : isDrawn show_min show_max v = true) :
    ∃ p, v = F.fin p := by
  cases v with
  | nan => rw [isDrawn_nan] at hd; exact absurd hd (by simp)
  | fin p => exact ⟨p, rfl⟩

theorem length_specBars_from (x_left y : Int) (c : SColor) (show_min show_max : F)
    (q : List F) (n : Nat) :
    ((q.enumFrom n).filterMap (specBar x_left y c show_min show_max)).length =
      q.countP (isDrawn show_min show_max) := by
  induction q generalizing n with
  | nil => rfl
  | cons v rest ih =>
    rw [List.enumFrom_cons, List.filterMap_cons]
    by_cases hd : isDrawn show_min show_max v = true
    · simp [specBar, hd, ih, List.countP_cons_of_pos]
    · simp [specBar, hd, ih, List.countP_cons_of_neg]

theorem specBars_inPlotArea (show_min show_max : F) (q : List F)
    (hoff : ∀ v ∈ q, isDrawn show_min show_max v = true →
      ∃ t, pixelOffset show_min show_max v = some t ∧ 0 ≤ t ∧ t ≤ 50)
    (x_left y : Int) (c : SColor) (width : Nat) (hw : q.length ≤ width) :
    ∀ l ∈ specBars x_left y c show_min show_max q, inPlotArea x_left y width l := by
  intro l hl
  unfold specBars List.enum at hl
  obtain ⟨⟨k, v⟩, hmem, hbar⟩ := List.mem_filterMap.mp hl
  obtain ⟨_, hk, hv0⟩ := List.mem_enumFrom hmem
  have hv : v ∈ q := by
    rw [hv0]
    apply List.getElem_mem
  unfold specBar at hbar
  by_cases hd : isDrawn show_min show_max v = true
  · obtain ⟨t, ht, ht0, ht1⟩ := hoff v hv hd
    simp only [hd, if_true, ht, Option.getD_some, Option.some.injEq] at hbar
    subst hbar
    unfold inPlotArea
    simp only
    omega
  · simp [hd] at hbar

theorem specSegments_inPlotArea (show_min show_max : F) (q : List F)
    (hoff : ∀ v ∈ q, isDrawn show_min show_max v = true →
      ∃ t, pixelOffset show_min show_max v = some t ∧ 0 ≤ t ∧ t ≤ 50)
    (x_left y : Int) (c : SColor) (width : Nat) (hw : q.length ≤ width) :
    ∀ l ∈ specSegments x_left y c show_min show_max q, inPlotArea x_left y width l := by
  intro l hl
  unfold specSegments at hl
  obtain ⟨⟨k, a, b⟩, hmem, hseg⟩ := List.mem_filterMap.mp hl
  obtain ⟨hk1, hk, hab0⟩ := List.mem_enumFrom hmem
  have hab : (a, b) ∈ q.zip q.tail := by
    rw [hab0]
    apply List.getElem_mem
  obtain ⟨ha, hb⟩ := List.of_mem_zip hab
  have hb1 : b ∈ q := List.mem_of_mem_tail hb
  rw [List.length_zip, List.length_tail] at hk
  unfold specSegment at hseg
  by_cases hd : (isDrawn show_min show_max a && isDrawn show_min show_max b) = true
  · obtain ⟨hda, hdb⟩ := (Bool.and_eq_true _ _).mp hd
    obtain ⟨t1, ht1, h10, h11⟩ := hoff a ha hda
    obtain ⟨t2, ht2, h20, h21⟩ := hoff b hb1 hdb
    simp only [hda, hdb, Bool.and_self, if_true, ht1, ht2, Option.getD_some,
      Option.some.injEq] at hseg
    subst hseg
    unfold inPlotArea
    simp only
    omega
  · simp only [hd, Bool.false_eq_true, if_false] at hseg
    exact Option.noConfusion hseg

/-! ## Lemmas on the loop of `draw` over the graphs -/

theorem drawGraph_eq (past_end : SColor) (x_left y_bottom : Int) (i : Nat) (g : Graph) :
    drawGraph past_end x_left y_bottom i g =
      drawQueue g.min g.max (F.ne g.min (F.fin 0) && F.ne g.min g.max)
        (y_bottom - (i : Int) * 50) 50 (seriesColor past_end i) g.queue x_left (FX.fin 0)
        false := rfl

theorem seriesColor_of_some (past_end c : SColor) (i : Nat) (h : graphColor i = some c) :
    seriesColor past_end i = c := by
  unfold seriesColor
  rw [h]

theorem drawFrom_cons (past_end : SColor) (x_left y_bottom : Int) (i : Nat) (name : String)
    (g : Graph) (rest : Log) :
    drawFrom past_end x_left y_bottom i ((name, g) :: rest) =
      (drawGraph past_end x_left y_bottom i g).bind (fun lines =>
        (drawFrom past_end x_left y_bottom (i + 1) rest).map (fun more => lines ++ more)) := by
  rw [drawFrom]
  cases drawGraph past_end x_left y_bottom i g <;>
    cases drawFrom past_end x_left y_bottom (i + 1) rest <;> rfl

theorem drawFrom_append (past_end : SColor) (x_left y_bottom : Int) (pre post : Log)
    (i : Nat) :
    drawFrom past_end x_left y_bottom i (pre ++ post) =
      (drawFrom past_end x_left y_bottom i pre).bind (fun before =>
        (drawFrom past_end x_left y_bottom (i + pre.length) post).map
          (fun after => before ++ after)) := by
  induction pre generalizing i with
  | nil =>
    simp only [List.nil_append, List.length_nil, Nat.add_zero]
    rw [show drawFrom past_end x_left y_bottom i [] = some [] from by rw [drawFrom]]
    cases drawFrom past_end x_left y_bottom i post <;> rfl
  | cons hd rest ih =>
    obtain ⟨name, g⟩ := hd
    rw [List.cons_append, drawFrom_cons, drawFrom_cons, ih (i + 1)]
    have hlen : i + 1 + rest.length = i + ((name, g) :: rest).length := by
      simp only [List.length_cons]; omega
    rw [hlen]
    cases drawGraph past_end x_left y_bottom i g with
    | none => rfl
    | some lines =>
      cases drawFrom past_end x_left y_bottom (i + 1) rest with
      | none => rfl
      | some more =>
        cases drawFrom past_end x_left y_bottom (i + ((name, g) :: rest).length) post with
        | none => rfl
        | some after => simp

/-- The lines of `draw` for a map are the lines for the graphs before the
graph with index `pre.length`, the lines for that graph, and the lines for the
graphs after it. -/
theorem draw_split (past_end : SColor) (x_left y_bottom : Int) (pre post : Log)
    (name : String) (g : Graph) (block : List Line)
    (h : drawGraph past_end x_left y_bottom pre.length g = some block) :
    draw past_end x_left y_bottom (pre ++ (name, g) :: post) =
      (draw past_end x_left y_bottom pre).bind (fun before =>
        (drawFrom past_end x_left y_bottom (pre.length + 1) post).map
          (fun after => before ++ block ++ after)) := by
  unfold draw
  rw [drawFrom_append, drawFrom_cons, Nat.zero_add, h]
  cases drawFrom past_end x_left y_bottom 0 pre with
  | none => rfl
  | some before =>
    cases drawFrom past_end x_left y_bottom (pre.length + 1) post with
    | none => rfl
    | some after => simp

/-! ## Lemmas on the arithmetic of `draw` -/

theorem ofInt_fifty : FX.ofInt 50 = FX.fin 50 := by decide!

theorem round32_one : round32 1 = FX.fin 1 := by decide!

theorem round32_fifty : round32 50 = FX.fin 50 := by decide!

theorem toS32_fin_range (r : ℚ) (h0 : 0 ≤ r) (h1 : r ≤ 50) :
    ∃ t, FX.toS32 (FX.fin r) = some t ∧ 0 ≤ t ∧ t ≤ 50 := by
  have hnum : 0 ≤ r.num := Rat.num_nonneg.mpr h0
  have hden : (0 : Int) ≤ (r.den : Int) := Int.natCast_nonneg _
  have hfloor : Int.tdiv r.num (r.den : Int) = ⌊r⌋ := by
    rw [Int.tdiv_eq_ediv hnum hden, Rat.floor_def]
  have hf0 : 0 ≤ ⌊r⌋ := Int.floor_nonneg.mpr h0
  have hf1 : ⌊r⌋ ≤ 50 := by
    have h := Int.floor_le r
    have h2 : ((⌊r⌋ : Int) : ℚ) ≤ ((50 : Int) : ℚ) := by
      push_cast
      linarith
    exact_mod_cast h2
  refine ⟨⌊r⌋, ?_, hf0, hf1⟩
  simp only [FX.toS32, hfloor]
  rw [if_pos ⟨by omega, by omega⟩]

/-- A scaled value in `[0, 1]` has an offset in `[0, 50]`. -/
theorem offset_of_unit (s : ℚ) (h0 : 0 ≤ s) (h1 : s ≤ 1) :
    ∃ t, FX.toS32 (FX.mul (FX.fin s) (FX.ofInt 50)) = some t ∧ 0 ≤ t ∧ t ≤ 50 := by
  rw [ofInt_fifty]
  obtain ⟨hr, hr0, hr1⟩ := round32_between (s * 50) 50 50 (by linarith) (by linarith)
    round32_fifty
  rw [show FX.mul (FX.fin s) (FX.fin 50) = round32 (s * 50) from rfl, hr]
  exact toS32_fin_range _ hr0 hr1

theorem scaledValue_of_eq (v : F) (m : ℚ) :
    scaledValue v (F.fin m) (F.fin m) = some (FX.fin 1) := by
  simp [scaledValue, F.ne, F.eq]

/-- For bounds of binary32 that enclose the value and whose difference does
not overflow, the scaled value is finite and lies in `[0, 1]`. -/
theorem scaled_enclosed (mn mx p d : ℚ) (hmn : isFloat mn) (hmx : isFloat mx) (h1 : mn ≤ p)
    (h2 : p ≤ mx) (hd : F.sub (F.fin mx) (F.fin mn) = FX.fin d) :
    ∃ s, scaledValue (F.fin p) (F.fin mn) (F.fin mx) = some (FX.fin s) ∧ 0 ≤ s ∧ s ≤ 1 := by
  by_cases h : mx = mn
  · subst h
    exact ⟨1, scaledValue_of_eq _ _, by norm_num, le_refl 1⟩
  · have hd1 : round32 (mx - mn) = FX.fin d := hd
    obtain ⟨ha, ha0, ha1⟩ := round32_between (p - mn) (mx - mn) d (sub_nonneg.mpr h1)
      (sub_le_sub_right h2 mn) hd1
    have hd0 : d ≠ 0 := by
      intro h0
      apply round32_sub_ne_zero mx mn hmx hmn h
      rw [hd1, h0]
    have hdpos : 0 < d := lt_of_le_of_ne (le_trans ha0 ha1) (Ne.symm hd0)
    obtain ⟨hs, hs0, hs1⟩ := round32_between (roundQ (p - mn) / d) 1 1
      (div_nonneg ha0 hdpos.le) ((div_le_one hdpos).mpr ha1) round32_one
    refine ⟨roundQ (roundQ (p - mn) / d), ?_, hs0, hs1⟩
    unfold scaledValue
    have hne : F.ne (F.fin mx) (F.fin mn) = true := by simp [F.ne, F.eq, h]
    rw [if_pos hne, hd, show F.sub (F.fin p) (F.fin mn) = round32 (p - mn) from rfl, ha]
    simp only [FX.div, hd0, if_false]
    rw [hs]

theorem pixelOffset_enclosed (mn mx p d : ℚ) (hmn : isFloat mn) (hmx : isFloat mx)
    (h1 : mn ≤ p) (h2 : p ≤ mx) (hd : F.sub (F.fin mx) (F.fin mn) = FX.fin d) :
    ∃ t, pixelOffset (F.fin mn) (F.fin mx) (F.fin p) = some t ∧ 0 ≤ t ∧ t ≤ 50 := by
  obtain ⟨s, hs, hs0, hs1⟩ := scaled_enclosed mn mx p d hmn hmx h1 h2 hd
  unfold pixelOffset
  rw [hs]
  exact offset_of_unit s hs0 hs1

theorem zeroSkipped_of_eq (m : ℚ) : zeroSkipped (F.fin m) (F.fin m) (F.fin 0) = true := by
  unfold zeroSkipped
  rw [scaledValue_of_eq]
  simp [FX.eq, F.eq]

theorem zeroSkipped_of_max_zero (mn : ℚ) (h : isFloat mn) :
    zeroSkipped (F.fin mn) (F.fin 0) (F.fin 0) = true := by
  by_cases h0 : mn = 0
  · subst h0
    exact zeroSkipped_of_eq 0
  · have hneg : round32 (0 - mn) = FX.fin (-mn) := by
      rw [zero_sub]
      exact isFloat_neg mn h
    have hne : F.ne (F.fin 0) (F.fin mn) = true := by
      simp [F.ne, F.eq, Ne.symm h0]
    have hsv : scaledValue (F.fin 0) (F.fin mn) (F.fin 0) = some (FX.fin 1) := by
      unfold scaledValue
      rw [if_pos hne, show F.sub (F.fin 0) (F.fin mn) = round32 (0 - mn) from rfl, hneg]
      simp only [FX.div, neg_eq_zero, h0, if_false]
      rw [div_self (neg_ne_zero.mpr h0), round32_one]
    unfold zeroSkipped
    rw [hsv]
    simp [FX.eq, F.eq]

theorem zeroSkipped_value (show_min show_max v : F)
    (h : zeroSkipped show_min show_max v = true) : v = F.fin 0 := by
  unfold zeroSkipped at h
  cases hsv : scaledValue v show_min show_max with
  | none => rw [hsv] at h; exact absurd h (by simp)
  | some sv =>
    rw [hsv] at h
    have h1 : (FX.eq sv (FX.fin 1) && F.eq v (F.fin 0)) = true := h
    have h2 := ((Bool.and_eq_true _ _).mp h1).2
    cases v with
    | nan => simp [F.eq] at h2
    | fin q =>
      have : q = 0 := by simpa [F.eq] using h2
      rw [this]

theorem FX.div_isSome (x d : FX) (hd : d ≠ FX.fin 0) : ∃ s, FX.div x d = some s := by
  cases x with
  | nan => exact ⟨_, rfl⟩
  | inf s =>
    cases d with
    | nan => exact ⟨_, rfl⟩
    | inf t => exact ⟨_, rfl⟩
    | fin b =>
      have hb : b ≠ 0 := fun h => hd (by rw [h])
      exact ⟨FX.inf (xor s (decide (b < 0))), by simp only [FX.div, hb, if_false]⟩
  | fin a =>
    cases d with
    | nan => exact ⟨_, rfl⟩
    | inf t => exact ⟨_, rfl⟩
    | fin b =>
      have hb : b ≠ 0 := fun h => hd (by rw [h])
      exact ⟨round32 (a / b), by simp only [FX.div, hb, if_false]⟩

/-! ## The values of reachable states are values of binary32 -/

theorem isFloat_of_sample (v : F) (h : F.IsFloat v) : ∃ q, v = F.fin q ∧ isFloat q := by
  cases v with
  | nan => exact absurd h (by simp [F.IsFloat])
  | fin q => exact ⟨q, rfl, h⟩

theorem finiteValues_of_float (values : GraphValues) (h : floatValues values) :
    finiteValues values := by
  intro p hp hnan
  have h1 := h p hp
  rw [hnan] at h1
  exact absurd h1 (by simp [F.IsFloat])

theorem floatGraph_newGraph (cap : Nat) (v : F) (hv : F.IsFloat v) :
    FloatGraph (newGraph cap v) := by
  obtain ⟨q, rfl, hq⟩ := isFloat_of_sample v hv
  have hp : present (newGraph cap (F.fin q)).queue = [q] := by
    unfold newGraph
    rw [present_append, present_replicate_nan]
    rfl
  refine ⟨?_, ⟨q, rfl, hq⟩, ⟨q, rfl, hq⟩⟩
  intro p hmem
  rw [hp, List.mem_singleton] at hmem
  rw [hmem]
  exact hq

theorem floatGraph_appendValue_none (g : Graph) (h : FloatGraph g) :
    FloatGraph (appendValue none g) := by
  obtain ⟨hq, hM, hm⟩ := h
  refine ⟨?_, hM, hm⟩
  intro p hmem
  simp only [appendValue, present_append, present, List.append_nil] at hmem
  exact hq p hmem

theorem floatGraph_appendValue_some (g : Graph) (v : F) (hv : F.IsFloat v)
    (h : FloatGraph g) : FloatGraph (appendValue (some v) g) := by
  obtain ⟨hq, ⟨M, hM, hMf⟩, ⟨m, hm, hmf⟩⟩ := h
  obtain ⟨q, rfl, hqf⟩ := isFloat_of_sample v hv
  refine ⟨?_, ?_, ?_⟩
  · intro p hmem
    simp only [appendValue, present_append, present, List.mem_append,
      List.mem_singleton] at hmem
    rcases hmem with hmem | rfl
    · exact hq p hmem
    · exact hqf
  · simp only [appendValue]
    split_ifs
    · exact ⟨q, rfl, hqf⟩
    · exact ⟨M, hM, hMf⟩
  · simp only [appendValue]
    split_ifs
    · exact ⟨q, rfl, hqf⟩
    · exact ⟨m, hm, hmf⟩

theorem floatGraph_erase_step (e : F) (rest : List F) (mx mn : F)
    (h : FloatGraph ⟨e :: rest, mx, mn⟩) :
    FloatGraph ⟨rest, maxAfterErase e rest mx,
      minAfterErase e rest (maxAfterErase e rest mx) mn⟩ := by
  obtain ⟨hq, ⟨M, hM, hMf⟩, ⟨m, hm, hmf⟩⟩ := h
  simp only at hq hM hm
  have hrest : ∀ p ∈ present rest, isFloat p :=
    fun p hmem => hq p (mem_present_cons p e rest hmem)
  have hmax : ∃ M1, maxAfterErase e rest mx = F.fin M1 ∧ isFloat M1 := by
    unfold maxAfterErase
    split_ifs
    · obtain ⟨M1, h1, _, _, h4⟩ := scanMax_spec rest 0
      refine ⟨M1, h1, ?_⟩
      rcases h4 with h4 | h4
      · rw [h4]
        exact isFloat_zero
      · exact hrest M1 h4
    · exact ⟨M, hM, hMf⟩
  obtain ⟨M1, hM1, hM1f⟩ := hmax
  refine ⟨hrest, ⟨M1, hM1, hM1f⟩, ?_⟩
  rw [hM1]
  unfold minAfterErase
  split_ifs
  · obtain ⟨m1, h1, _, _, h4⟩ := scanMin_spec rest M1
    refine ⟨m1, h1, ?_⟩
    rcases h4 with h4 | h4
    · rw [h4]
      exact hM1f
    · exact hrest m1 h4
  · exact ⟨m, hm, hmf⟩

theorem floatGraph_eraseBeyondLimit (cap : Nat) (q : List F) (mx mn : F)
    (h : FloatGraph ⟨q, mx, mn⟩) : FloatGraph (eraseBeyondLimit cap q mx mn) := by
  induction q generalizing mx mn with
  | nil => simpa [eraseBeyondLimit] using h
  | cons e rest ih =>
    unfold eraseBeyondLimit
    by_cases hlim : rest.length + 1 > cap
    · simp only [hlim, if_true]
      exact ih _ _ (floatGraph_erase_step e rest mx mn h)
    · simpa [hlim] using h

/-- In every state that `put` reaches from the empty map with samples that are
finite values of binary32, the present values and the bounds of every graph
are finite values of binary32. -/
theorem floatGraph_of_reachable (cap : Nat) (calls : List GraphValues)
    (hfl : ∀ values ∈ calls, floatValues values) :
    ∀ e ∈ runPuts cap calls, FloatGraph e.2 :=
  runPuts_invariant FloatGraph F.IsFloat cap (floatGraph_newGraph cap)
    (fun g hg => floatGraph_eraseBeyondLimit cap _ _ _ (floatGraph_appendValue_none g hg))
    (fun g v hg hv => floatGraph_eraseBeyondLimit cap _ _ _ (floatGraph_appendValue_some g v hv hg))
    calls hfl

/-- In a reachable state, for a graph whose difference `max - min` does not
overflow, every drawn entry has an offset in `[0, 50]`. -/
theorem offsets_of_reachable (g : Graph) (henc : Enclosed g) (hfl : FloatGraph g) (d : ℚ)
    (hd : F.sub g.max g.min = FX.fin d) :
    ∀ v ∈ g.queue, isDrawn g.min g.max v = true →
      ∃ t, pixelOffset g.min g.max v = some t ∧ 0 ≤ t ∧ t ≤ 50 := by
  obtain ⟨m, M, hm, hM, hb⟩ := henc
  obtain ⟨_, ⟨M1, hM1, hMf⟩, ⟨m1, hm1, hmf⟩⟩ := hfl
  rw [hM] at hM1
  rw [hm] at hm1
  have e1 : M = M1 := F.fin.inj hM1
  have e2 : m = m1 := F.fin.inj hm1
  subst e1
  subst e2
  intro v hv hdr
  rw [hm, hM] at hdr hd ⊢
  obtain ⟨p, rfl⟩ := isDrawn_fin _ _ v hdr
  have hp := hb p (mem_present_of_mem p _ hv)
  exact pixelOffset_enclosed m M p d hmf hMf hp.1 hp.2 hd

theorem draw_singleton (past_end : SColor) (x_left y_bottom : Int) (name : String)
    (g : Graph) (block : List Line) (h : drawGraph past_end x_left y_bottom 0 g = some block) :
    draw past_end x_left y_bottom [(name, g)] = some block := by
  have h1 := draw_split past_end x_left y_bottom [] [] name g block h
  rw [List.nil_append] at h1
  rw [h1]
  simp [draw, drawFrom]

theorem drawQueue_zeros (rel : Bool) (y h : Int) (c : SColor) (flags : List Bool) (x : Int)
    (last : FX) (ex : Bool) :
    drawQueue (F.fin 0) (F.fin 0) rel y h c
        (flags.map (fun b => if b = true then F.fin 0 else F.nan)) x last ex = some [] := by
  induction flags generalizing x ex with
  | nil => rfl
  | cons b rest ih =>
    rw [List.map_cons]
    cases b with
    | true =>
      rw [if_pos rfl, drawQueue_cons_skipped _ _ _ _ _ _ _ _ _ _ _ (zeroSkipped_of_eq 0)]
      exact ih _ _
    | false =>
      rw [if_neg (by simp), drawQueue_cons_nan]
      exact ih _ _

/-- For bounds of binary32 the value 0 is skipped exactly when max = min or
the rounded difference `max - min` is `-min`. -/
theorem zeroSkipped_zero_iff (mn mx : ℚ) (hmn : isFloat mn) (hmx : isFloat mx) :
    zeroSkipped (F.fin mn) (F.fin mx) (F.fin 0) = true ↔
      (mx = mn ∨ F.sub (F.fin mx) (F.fin mn) = FX.fin (-mn)) := by
  by_cases heq : mx = mn
  · subst heq
    simp [zeroSkipped_of_eq]
  · have hne : F.ne (F.fin mx) (F.fin mn) = true := by simp [F.ne, F.eq, heq]
    have hneg : round32 (0 - mn) = FX.fin (-mn) := by
      rw [zero_sub]
      exact isFloat_neg mn hmn
    have hsv : scaledValue (F.fin 0) (F.fin mn) (F.fin mx) =
        FX.div (FX.fin (-mn)) (round32 (mx - mn)) := by
      unfold scaledValue
      rw [if_pos hne, show F.sub (F.fin 0) (F.fin mn) = round32 (0 - mn) from rfl, hneg]
      rfl
    have hsub : F.sub (F.fin mx) (F.fin mn) = round32 (mx - mn) := rfl
    have hd0 := round32_sub_ne_zero mx mn hmx hmn heq
    unfold zeroSkipped
    rw [hsv, hsub]
    cases hd : round32 (mx - mn) with
    | nan => exact absurd hd (round32_ne_nan _)
    | inf b => simp [FX.div, FX.eq, heq]
    | fin d =>
      have hd1 : d ≠ 0 := by
        intro h0
        apply hd0
        rw [hd, h0]
      have hfd : isFloat d := isFloat_of_round32 _ _ hd
      have hone := roundQ_div_eq_one (-mn) d (isFloat_neg mn hmn) hfd hd1
      simp only [FX.div, hd1, if_false, heq, false_or, FX.fin.injEq]
      constructor
      · intro h
        have h1 : FX.eq (round32 (-mn / d)) (FX.fin 1) = true :=
          ((Bool.and_eq_true _ _).mp h).1
        cases hr : round32 (-mn / d) with
        | nan => rw [hr] at h1; simp [FX.eq] at h1
        | inf b => rw [hr] at h1; simp [FX.eq] at h1
        | fin r =>
          rw [hr] at h1
          have h2 : r = 1 := by simpa [FX.eq] using h1
          have h3 := (round32_fin _ _ hr).1
          rw [h2] at h3
          exact (hone.mp h3).symm
      · intro h
        rw [h, div_self (by rw [← h]; exact hd1), round32_one]
        simp [FX.eq, F.eq]

/-! ## The claims on `draw` -/

/-- C10, as stated, fails under the rounding of binary32.  The bounds -1 and
16777216 and the value 8388607 are reached by three calls of `put`; the
difference `max - min = 16777217` rounds to 16777216, so the scaled value is
exactly 1/2, while `(v - min) / (max - min)` is 8388608/16777217. -/
theorem scaled_value_is_rounded :
    runPuts 3 [[("a", F.fin (-1))], [("a", F.fin 8388607)], [("a", F.fin 16777216)]] =
        [("a", ⟨[F.fin (-1), F.fin 8388607, F.fin 16777216], F.fin 16777216, F.fin (-1)⟩)] ∧
      (isFloat (-1) ∧ isFloat 8388607 ∧ isFloat 16777216) ∧
      scaledValue (F.fin 8388607) (F.fin (-1)) (F.fin 16777216) = some (FX.fin (1 / 2)) ∧
      ((8388607 - (-1)) / (16777216 - (-1)) : ℚ) ≠ 1 / 2 := by
  decide!

/-- C10, amended: for bounds min and max that are values of binary32 and every
value `v`, the scaled value of `draw` is exactly 1 when `max = min`; when
`max ≠ min` the divisor `max - min`, rounded to binary32, is not zero, so no
division by zero is made, and the scaled value is the quotient in binary32 of
the differences `v - min` and `max - min` rounded to binary32: when the
rounded differences are the finite values `a` and `d`, it is `a / d` rounded
to binary32.  It is `(v - min) / (max - min)` when the two differences and
their quotient are values of binary32.  For min 0, max 10 and the value 5 it is 1/2, the offset
is 25, and `draw` draws the graph whose history is that one value as one bar
of height 25. -/
theorem scaled_value (v mn mx : ℚ) (hmn : isFloat mn) (hmx : isFloat mx)
    (past_end : SColor) (x_left y_bottom : Int) :
    (mx = mn → scaledValue (F.fin v) (F.fin mn) (F.fin mx) = some (FX.fin 1)) ∧
      (mx ≠ mn → F.sub (F.fin mx) (F.fin mn) ≠ FX.fin 0 ∧
        ∃ s, scaledValue (F.fin v) (F.fin mn) (F.fin mx) = some s ∧
          FX.div (round32 (v - mn)) (round32 (mx - mn)) = some s) ∧
      (mx ≠ mn → ∀ a d, F.sub (F.fin v) (F.fin mn) = FX.fin a →
        F.sub (F.fin mx) (F.fin mn) = FX.fin d →
          d ≠ 0 ∧ scaledValue (F.fin v) (F.fin mn) (F.fin mx) = some (round32 (a / d))) ∧
      (mx ≠ mn → isFloat (v - mn) → isFloat (mx - mn) → isFloat ((v - mn) / (mx - mn)) →
        scaledValue (F.fin v) (F.fin mn) (F.fin mx) =
          some (FX.fin ((v - mn) / (mx - mn)))) ∧
      scaledValue (F.fin 5) (F.fin 0) (F.fin 10) = some (FX.fin (1 / 2)) ∧
      FX.toS32 (FX.mul (FX.fin (1 / 2)) (FX.ofInt 50)) = some 25 ∧
      draw past_end x_left y_bottom [("a", ⟨[F.fin 5], F.fin 10, F.fin 0⟩)] =
        some [⟨x_left, y_bottom, x_left, y_bottom - 25, ⟨255, 255, 100, 100⟩⟩] := by
  have hne : mx ≠ mn → F.ne (F.fin mx) (F.fin mn) = true := by
    intro h
    simp [F.ne, F.eq, h]
  refine ⟨?_, ?_, ?_, ?_, by decide!, by decide!, ?_⟩
  · intro h
    rw [h]
    exact scaledValue_of_eq _ _
  · intro h
    have hd : round32 (mx - mn) ≠ FX.fin 0 := round32_sub_ne_zero mx mn hmx hmn h
    refine ⟨hd, ?_⟩
    obtain ⟨s, hs⟩ := FX.div_isSome (round32 (v - mn)) (round32 (mx - mn)) hd
    refine ⟨s, ?_, hs⟩
    unfold scaledValue
    rw [if_pos (hne h)]
    exact hs
  · intro h a d ha hd
    have hd0 : d ≠ 0 := by
      intro h0
      apply round32_sub_ne_zero mx mn hmx hmn h
      rw [← h0]
      exact hd
    refine ⟨hd0, ?_⟩
    unfold scaledValue
    rw [if_pos (hne h), ha, hd]
    simp only [FX.div, hd0, if_false]
  · intro h h1 h2 h3
    have h0 : mx - mn ≠ 0 := sub_ne_zero.mpr h
    unfold scaledValue
    rw [if_pos (hne h), show F.sub (F.fin v) (F.fin mn) = round32 (v - mn) from rfl,
      show F.sub (F.fin mx) (F.fin mn) = round32 (mx - mn) from rfl, h1, h2]
    simp only [FX.div, h0, if_false]
    rw [h3]
  · apply draw_singleton
    have hconv : ∀ w ∈ [F.fin 5], isDrawn (F.fin 0) (F.fin 10) w = true →
        (pixelOffset (F.fin 0) (F.fin 10) w).isSome = true := by decide!
    rw [drawGraph_eq,
      show (F.ne (F.fin 0) (F.fin 0) && F.ne (F.fin 0) (F.fin 10)) = false by decide,
      drawQueue_absolute_start _ _ _ _ _ _ hconv]
    have h1 : pixelOffset (F.fin 0) (F.fin 10) (F.fin 5) = some 25 := by decide!
    have h2 : isDrawn (F.fin 0) (F.fin 10) (F.fin 5) = true := by decide!
    simp [specBars, specBar, List.enum, List.enumFrom, h1, h2, seriesColor, graphColor,
      usable_colors, usable_colors_count]

/-- Witness of C10, amended: the bounds 1 and 3 and the value 2, whose scaled
value is 1/2 without rounding. -/
theorem scaled_value_witness :
    scaledValue (F.fin 2) (F.fin 1) (F.fin 3) = some (FX.fin ((2 - 1) / (3 - 1))) :=
  (scaled_value 2 1 3 (by decide!) (by decide!) ⟨0, 0, 0, 0⟩ 0 0).2.2.2.1 (by decide!)
    (by decide!) (by decide!) (by decide!)

/-- C11: for a graph with min = max = 0, a slot of the history that holds the
value 0 is passed like a slot that holds NaN: the loop goes on with the rest
of the history from the cursor `x + 1` with `lastscaledvalue_exists` false and
draws no line for the slot.  A history of such a graph that holds only zeros
and NaNs is drawn as no line at all. -/
theorem degenerate_zero_skipped (rel : Bool) (y h : Int) (c : SColor) (rest : List F)
    (x : Int) (last : FX) (ex : Bool) (flags : List Bool) :
    zeroSkipped (F.fin 0) (F.fin 0) (F.fin 0) = true ∧
      drawQueue (F.fin 0) (F.fin 0) rel y h c (F.fin 0 :: rest) x last ex =
        drawQueue (F.fin 0) (F.fin 0) rel y h c rest (x + 1) last false ∧
      drawQueue (F.fin 0) (F.fin 0) rel y h c (F.fin 0 :: rest) x last ex =
        drawQueue (F.fin 0) (F.fin 0) rel y h c (F.nan :: rest) x last ex ∧
      drawQueue (F.fin 0) (F.fin 0) rel y h c
        (flags.map (fun b => if b = true then F.fin 0 else F.nan)) x last ex = some [] := by
  have hs : zeroSkipped (F.fin 0) (F.fin 0) (F.fin 0) = true := zeroSkipped_of_eq 0
  refine ⟨hs, drawQueue_cons_skipped _ _ _ _ _ _ _ _ _ _ _ hs, ?_, drawQueue_zeros _ _ _ _ _ _ _ _⟩
  rw [drawQueue_cons_skipped _ _ _ _ _ _ _ _ _ _ _ hs, drawQueue_cons_nan]

/-- C13: for a graph with min = 0 or min = max, whose conversions of the
offsets to `s32` are defined, at the index `pre.length` of the map, `draw`
emits for the graph exactly the bars of the specification, in the order of
the slots: for each slot `k` that holds a drawn entry `v`, the line from
`(x_left + k, y)` to `(x_left + k, y - offset v)`, with
`y = y_bottom - pre.length * 50`, in the colour of the index, and nothing for
the other slots; the lines of `draw` for the whole map are the lines of the
graphs before, these bars, and the lines of the graphs after.  The number of
bars is the number of drawn entries. -/
theorem absolute_mode_bars (past_end : SColor) (x_left y_bottom : Int) (pre post : Log)
    (name : String) (g : Graph)
    (hmode : F.ne g.min (F.fin 0) = false ∨ F.ne g.min g.max = false)
    (hconv : OffsetsDefined g) :
    drawGraph past_end x_left y_bottom pre.length g =
        some (specBars x_left (y_bottom - (pre.length : Int) * 50)
          (seriesColor past_end pre.length) g.min g.max g.queue) ∧
      draw past_end x_left y_bottom (pre ++ (name, g) :: post) =
        (draw past_end x_left y_bottom pre).bind (fun before =>
          (drawFrom past_end x_left y_bottom (pre.length + 1) post).map (fun after =>
            before ++ specBars x_left (y_bottom - (pre.length : Int) * 50)
              (seriesColor past_end pre.length) g.min g.max g.queue ++ after)) ∧
      (specBars x_left (y_bottom - (pre.length : Int) * 50)
        (seriesColor past_end pre.length) g.min g.max g.queue).length =
          g.queue.countP (isDrawn g.min g.max) := by
  have hrel : (F.ne g.min (F.fin 0) && F.ne g.min g.max) = false := by
    rcases hmode with h | h
    · rw [h, Bool.false_and]
    · rw [h, Bool.and_false]
  have h1 : drawGraph past_end x_left y_bottom pre.length g =
      some (specBars x_left (y_bottom - (pre.length : Int) * 50)
        (seriesColor past_end pre.length) g.min g.max g.queue) := by
    rw [drawGraph_eq, hrel]
    exact drawQueue_absolute_start _ _ _ _ _ _ hconv
  exact ⟨h1, draw_split past_end x_left y_bottom pre post name g _ h1,
    length_specBars_from _ _ _ _ _ _ 0⟩

/-- Witness of C13: the map holds the graph "a" with min 0, max 10 and the
history NaN, 5, 0, 7, 10, and a graph "b" in relative mode; `draw` at the
anchor (10, 100) emits for "a" four bars, of the heights 25, 0, 35 and 50 at
the slots 1, 2, 3 and 4 (the product of the scaled value of 7 and 50 is
rounded to 35), and nothing for the slot 0, then the segment of "b". -/
theorem absolute_mode_bars_witness :
    draw ⟨0, 0, 0, 0⟩ 10 100
        [("a", ⟨[F.nan, F.fin 5, F.fin 0, F.fin 7, F.fin 10], F.fin 10, F.fin 0⟩),
          ("b", ⟨[F.fin 1, F.fin 3], F.fin 3, F.fin 1⟩)] =
      some [⟨11, 100, 11, 75, ⟨255, 255, 100, 100⟩⟩,
        ⟨12, 100, 12, 100, ⟨255, 255, 100, 100⟩⟩,
        ⟨13, 100, 13, 65, ⟨255, 255, 100, 100⟩⟩,
        ⟨14, 100, 14, 50, ⟨255, 255, 100, 100⟩⟩,
        ⟨10, 50, 11, 0, ⟨255, 90, 225, 90⟩⟩] := by
  have h := (absolute_mode_bars ⟨0, 0, 0, 0⟩ 10 100 []
    [("b", ⟨[F.fin 1, F.fin 3], F.fin 3, F.fin 1⟩)] "a"
    ⟨[F.nan, F.fin 5, F.fin 0, F.fin 7, F.fin 10], F.fin 10, F.fin 0⟩
    (Or.inl (by decide)) (by decide!)).2.1
  rw [List.nil_append] at h
  rw [h]
  decide!

/-- C16, as stated, fails when the difference of the bounds overflows.  With
the limit 2, the two finite samples 2^127 and -2^127 are reached by two calls
of `put`; `max - min = 2^128` is rounded to infinity, the scaled value of the
present value 2^127 is `inf / inf`, a NaN, which is not in `[0, 1]`, and its
conversion to `s32` is undefined, so `draw` has no defined drawing. -/
theorem overflow_leaves_unit_interval :
    (floatValues [("a", F.fin (2 ^ 127))] ∧ floatValues [("a", F.fin (-2 ^ 127))]) ∧
      runPuts 2 [[("a", F.fin (2 ^ 127))], [("a", F.fin (-2 ^ 127))]] =
        [("a", ⟨[F.fin (2 ^ 127), F.fin (-2 ^ 127)], F.fin (2 ^ 127), F.fin (-2 ^ 127)⟩)] ∧
      F.sub (F.fin (2 ^ 127)) (F.fin (-2 ^ 127)) = FX.inf false ∧
      scaledValue (F.fin (2 ^ 127)) (F.fin (-2 ^ 127)) (F.fin (2 ^ 127)) = some FX.nan ∧
      pixelOffset (F.fin (-2 ^ 127)) (F.fin (2 ^ 127)) (F.fin (2 ^ 127)) = none ∧
      draw ⟨0, 0, 0, 0⟩ 0 0
        (runPuts 2 [[("a", F.fin (2 ^ 127))], [("a", F.fin (-2 ^ 127))]]) = none := by
  decide!

/-- C16, amended: for every limit of at least 1, every state that `put`
reaches from the empty map with finite samples of binary32, and every graph of
the state, at the index `pre.length`, whose difference `max - min` does not
overflow in binary32: the scaled value of every present value of the history
is finite and lies in `[0, 1]`; the drawing of the graph by `draw` is defined,
and every line of it has its two ends with `x` in
`[x_left, x_left + limit - 1]` and `y` in `[yi - 50, yi]`, where
`yi = y_bottom - pre.length * 50`; the lines of `draw` for the whole map are
the lines of the graphs before, these lines, and the lines of the graphs
after. -/
theorem drawing_inside_plot_area (cap : Nat) (hcap : 1 ≤ cap) (calls : List GraphValues)
    (hfl : ∀ values ∈ calls, floatValues values) (past_end : SColor) (x_left y_bottom : Int)
    (pre post : Log) (name : String) (g : Graph)
    (hlog : runPuts cap calls = pre ++ (name, g) :: post) (d : ℚ)
    (hd : F.sub g.max g.min = FX.fin d) :
    (∀ p ∈ present g.queue,
        ∃ s, scaledValue (F.fin p) g.min g.max = some (FX.fin s) ∧ 0 ≤ s ∧ s ≤ 1) ∧
      ∃ block, drawGraph past_end x_left y_bottom pre.length g = some block ∧
        (∀ l ∈ block, inPlotArea x_left (y_bottom - (pre.length : Int) * 50) cap l) ∧
        draw past_end x_left y_bottom (runPuts cap calls) =
          (draw past_end x_left y_bottom pre).bind (fun before =>
            (drawFrom past_end x_left y_bottom (pre.length + 1) post).map (fun after =>
              before ++ block ++ after)) := by
  have hmem : (name, g) ∈ runPuts cap calls := by
    rw [hlog]
    simp
  have henc : Enclosed g :=
    enclosed_of_reachable cap calls (fun v hv => finiteValues_of_float v (hfl v hv)) _ hmem
  have hflg : FloatGraph g := floatGraph_of_reachable cap calls hfl _ hmem
  have hlen : g.queue.length ≤ cap := length_le_of_reachable cap hcap calls _ hmem
  have hoff := offsets_of_reachable g henc hflg d hd
  have hconv : ∀ v ∈ g.queue, isDrawn g.min g.max v = true →
      (pixelOffset g.min g.max v).isSome = true := by
    intro v hv hdr
    obtain ⟨t, ht, _⟩ := hoff v hv hdr
    rw [ht]
    rfl
  refine ⟨?_, ?_⟩
  · obtain ⟨m, M, hm, hM, hb⟩ := henc
    obtain ⟨_, ⟨M1, hM1, hMf⟩, ⟨m1, hm1, hmf⟩⟩ := hflg
    rw [hM] at hM1
    rw [hm] at hm1
    have e1 : M = M1 := F.fin.inj hM1
    have e2 : m = m1 := F.fin.inj hm1
    subst e1
    subst e2
    intro p hp
    rw [hm, hM] at hd ⊢
    exact scaled_enclosed m M p d hmf hMf (hb p hp).1 (hb p hp).2 hd
  · rw [hlog]
    cases hrel : (F.ne g.min (F.fin 0) && F.ne g.min g.max) with
    | true =>
      have h1 : drawGraph past_end x_left y_bottom pre.length g =
          some (specSegments x_left (y_bottom - (pre.length : Int) * 50)
            (seriesColor past_end pre.length) g.min g.max g.queue) := by
        rw [drawGraph_eq, hrel]
        exact drawQueue_relative_start _ _ _ _ _ _ hconv
      exact ⟨_, h1, specSegments_inPlotArea _ _ _ hoff _ _ _ _ hlen,
        draw_split past_end x_left y_bottom pre post name g _ h1⟩
    | false =>
      have h1 : drawGraph past_end x_left y_bottom pre.length g =
          some (specBars x_left (y_bottom - (pre.length : Int) * 50)
            (seriesColor past_end pre.length) g.min g.max g.queue) := by
        rw [drawGraph_eq, hrel]
        exact drawQueue_absolute_start _ _ _ _ _ _ hconv
      exact ⟨_, h1, specBars_inPlotArea _ _ _ hoff _ _ _ _ hlen,
        draw_split past_end x_left y_bottom pre post name g _ h1⟩

/-- Witness of C16, amended: the limit 2 and the calls with the samples 1 and
then 3 for "a"; the scaled values of 1 and 3 lie in `[0, 1]` and the drawing
of the graph at the anchor (10, 100) lies in the plot area. -/
theorem drawing_inside_plot_area_witness :
    (∀ p ∈ present [F.fin 1, F.fin 3],
        ∃ s, scaledValue (F.fin p) (F.fin 1) (F.fin 3) = some (FX.fin s) ∧ 0 ≤ s ∧ s ≤ 1) ∧
      ∃ block, drawGraph ⟨0, 0, 0, 0⟩ 10 100 0 ⟨[F.fin 1, F.fin 3], F.fin 3, F.fin 1⟩ =
          some block ∧
        ∀ l ∈ block, inPlotArea 10 100 2 l := by
  have h := drawing_inside_plot_area 2 (by decide) [[("a", F.fin 1)], [("a", F.fin 3)]]
    (by decide!) ⟨0, 0, 0, 0⟩ 10 100 [] [] "a" ⟨[F.fin 1, F.fin 3], F.fin 3, F.fin 1⟩
    (by decide) 2 (by decide!)
  obtain ⟨h1, block, h2, h3, _⟩ := h
  refine ⟨h1, block, h2, ?_⟩
  simpa using h3

/-- C20, as stated, fails in the direction "only if".  The bounds -1 and 2^-30
and the history -1, 0, 2^-30 are reached by three calls of `put`; max is
neither min nor 0, yet `max - min` is rounded to 1, the scaled value of the
sample 0 is exactly 1, and the sample is skipped: `draw` emits no segment at
all for the graph. -/
theorem zero_skipped_by_rounding :
    runPuts 3 [[("a", F.fin (-1))], [("a", F.fin 0)], [("a", F.fin (1 / 1073741824))]] =
        [("a", ⟨[F.fin (-1), F.fin 0, F.fin (1 / 1073741824)], F.fin (1 / 1073741824),
          F.fin (-1)⟩)] ∧
      isFloat (1 / 1073741824) ∧
      F.ne (F.fin (1 / 1073741824)) (F.fin (-1)) = true ∧
      F.ne (F.fin (1 / 1073741824)) (F.fin 0) = true ∧
      scaledValue (F.fin 0) (F.fin (-1)) (F.fin (1 / 1073741824)) = some (FX.fin 1) ∧
      zeroSkipped (F.fin (-1)) (F.fin (1 / 1073741824)) (F.fin 0) = true ∧
      draw ⟨0, 0, 0, 0⟩ 0 0
        (runPuts 3 [[("a", F.fin (-1))], [("a", F.fin 0)], [("a", F.fin (1 / 1073741824))]]) =
          some [] := by
  decide!

/-- C20, amended: for bounds that are values of binary32 and every entry `v`
of a history, `draw` skips `v` (no line for the slot,
`lastscaledvalue_exists` reset, cursor advanced by one) if and only if `v = 0`
and either max = min or the difference `max - min`, rounded to binary32, is
`-min`; the latter is the case when max = 0.  An entry that exists is drawn
exactly when it is not skipped.  So with min -1 and max 0 (relative mode) the
sample 0, the maximum, is not drawn and breaks the line: the history -1, 0, -1
gives no segment, where the history -1, -1/2, -1 gives two. -/
theorem zero_skip_characterisation (mn mx : ℚ) (hmn : isFloat mn) (hmx : isFloat mx) (v : F)
    (rel : Bool) (y h : Int) (c : SColor) (rest : List F) (x : Int) (last : FX) (ex : Bool) :
    (zeroSkipped (F.fin mn) (F.fin mx) v = true ↔
        v = F.fin 0 ∧ (mx = mn ∨ F.sub (F.fin mx) (F.fin mn) = FX.fin (-mn))) ∧
      (mx = 0 → F.sub (F.fin mx) (F.fin mn) = FX.fin (-mn)) ∧
      (zeroSkipped (F.fin mn) (F.fin mx) v = true →
        drawQueue (F.fin mn) (F.fin mx) rel y h c (v :: rest) x last ex =
          drawQueue (F.fin mn) (F.fin mx) rel y h c rest (x + 1) last false) ∧
      (∀ q, isDrawn (F.fin mn) (F.fin mx) (F.fin q) =
        !(zeroSkipped (F.fin mn) (F.fin mx) (F.fin q))) ∧
      draw ⟨0, 0, 0, 0⟩ 10 100 [("a", ⟨[F.fin (-1), F.fin 0, F.fin (-1)], F.fin 0, F.fin (-1)⟩)] =
        some [] ∧
      draw ⟨0, 0, 0, 0⟩ 10 100
          [("a", ⟨[F.fin (-1), F.fin (-1 / 2), F.fin (-1)], F.fin 0, F.fin (-1)⟩)] =
        some [⟨10, 100, 11, 75, ⟨255, 255, 100, 100⟩⟩,
          ⟨11, 75, 12, 100, ⟨255, 255, 100, 100⟩⟩] := by
  refine ⟨⟨?_, ?_⟩, ?_, drawQueue_cons_skipped _ _ _ _ _ _ _ _ _ _ _, ?_, by decide!,
    by decide!⟩
  · intro hs
    have hv := zeroSkipped_value _ _ _ hs
    subst hv
    exact ⟨rfl, (zeroSkipped_zero_iff mn mx hmn hmx).mp hs⟩
  · rintro ⟨hv, hb⟩
    subst hv
    exact (zeroSkipped_zero_iff mn mx hmn hmx).mpr hb
  · intro h0
    subst h0
    rw [show F.sub (F.fin 0) (F.fin mn) = round32 (0 - mn) from rfl, zero_sub]
    exact isFloat_neg mn hmn
  · intro q
    simp [isDrawn, F.eq]

/-- Witness of C20, amended: the bounds min -1 and max 0; the sample 0 is
skipped. -/
theorem zero_skip_characterisation_witness :
    zeroSkipped (F.fin (-1)) (F.fin 0) (F.fin 0) = true :=
  ((zero_skip_characterisation (-1) 0 (by decide!) (by decide!) (F.fin 0) true 0 50
    ⟨0, 0, 0, 0⟩ [] 0 (FX.fin 0) false).1).mpr ⟨rfl, Or.inr (by decide!)⟩

end ProfilerGraph
